import Mathlib

/-!
Verification development for the text-normalization and chapter-segmentation
pipeline of the `json-and-the-markdowns` repository
(`src/text_processor.py`, `src/app.py`).

Text is modelled as a list of characters (`Text := List Char`).  Python's
regular-expression based rewrite rules are embedded as executable scanning
functions over `Text`; every scanner documents the exact pattern from the
source it implements, together with the backtracking analysis that makes the
deterministic scan equivalent to the Python `re.sub` / `re.match` behaviour.
Character classes (`\w`, `\s`, case mapping) are modelled over the character
sets the pipeline actually manipulates (ASCII plus the specific Unicode
punctuation the NORMALIZE stage rewrites), matching Python semantics on those
characters.
-/

/-- Characters of a Python `str`, in order. -/
abbrev Text := List Char

/-- Convenience: the character list of a string literal. -/
def str (s : String) : Text := s.data

/-- The apostrophe character (spelled via its code point). -/
def apos : Char := Char.ofNat 39

/-- The backquote character (spelled via its code point). -/
def backq : Char := Char.ofNat 96

/-- Python `str.isspace` / regex `\s`, on the character set handled by the
pipeline (ASCII whitespace plus NEL and NBSP, which Python also treats as
whitespace). -/
def pyIsSpace (c : Char) : Bool :=
  c = ' ' || c = '\t' || c = '\n' || c = '\r' || c = '\x0b' || c = '\x0c' ||
  c = '\x1c' || c = '\x1d' || c = '\x1e' || c = '\x1f' || c = '\x85' || c = '\xa0'

/-- Regex `\w` (word character), ASCII: letters, digits, underscore. -/
def wordChar (c : Char) : Bool :=
  ('A' ≤ c && c ≤ 'Z') || ('a' ≤ c && c ≤ 'z') || ('0' ≤ c && c ≤ '9') || c = '_'

/-- Regex `[A-Za-z]`. -/
def isAlphaC (c : Char) : Bool := ('A' ≤ c && c ≤ 'Z') || ('a' ≤ c && c ≤ 'z')

/-- Regex `[a-z]`. -/
def isLowerC (c : Char) : Bool := 'a' ≤ c && c ≤ 'z'

/-- Regex `[A-Z]`. -/
def isUpperC (c : Char) : Bool := 'A' ≤ c && c ≤ 'Z'

/-- Regex `\d` (ASCII digit). -/
def isDigitC (c : Char) : Bool := '0' ≤ c && c ≤ '9'

/-- ASCII uppercasing of one character: Python `str.upper` on the ASCII
letters (all other characters are returned unchanged). -/
def pyUpperChar (c : Char) : Char :=
  if 'a' ≤ c ∧ c ≤ 'z' then Char.ofNat (c.toNat - 32) else c

/-- ASCII lowercasing of one character: Python `str.lower` on the ASCII
letters (all other characters are returned unchanged). -/
def pyLowerChar (c : Char) : Char :=
  if 'A' ≤ c ∧ c ≤ 'Z' then Char.ofNat (c.toNat + 32) else c

/-- Python `str.upper`. -/
def pyUpperS (l : Text) : Text := l.map pyUpperChar

/-- Python `str.lower`. -/
def pyLowerS (l : Text) : Text := l.map pyLowerChar

/-- Python `str.strip()`: remove leading and trailing whitespace. -/
def pyStrip (l : Text) : Text :=
  ((l.dropWhile pyIsSpace).reverse.dropWhile pyIsSpace).reverse

/-- Case-insensitive ASCII equality of texts. -/
def ciEq (a b : Text) : Bool := pyLowerS a = pyLowerS b

/-- Does `l` begin with the word `w`, ASCII case-insensitively? (`w` is given
in lowercase.) -/
def ciStarts (w : Text) (l : Text) : Bool := pyLowerS (l.take w.length) = w

/-- Does the first list lead the second (i.e. is it an initial segment)? -/
def leadsWith : Text → Text → Bool
  | [], _ => true
  | _ :: _, [] => false
  | a :: pa, b :: lb => a = b && leadsWith pa lb

/-- Does `pat` occur contiguously inside `l`?  (Python `pat in l` on strings.) -/
def containsSeq (pat : Text) : Text → Bool
  | [] => decide (pat = [])
  | c :: rest => leadsWith pat (c :: rest) || containsSeq pat rest

/-- Python `str.splitlines` boundary characters (apart from `"\r\n"`, which is
consumed as a single boundary). -/
def lineBreakChar (c : Char) : Bool :=
  c = '\n' || c = '\r' || c = '\x0b' || c = '\x0c' || c = '\x1c' || c = '\x1d' ||
  c = '\x1e' || c = '\x85' || c = '\u2028' || c = '\u2029'

/-- Worker for `pySplitlines`; `acc` is the reversed current line. -/
def splitlinesGo : Text → Text → List Text
  | [], acc => if acc = [] then [] else [acc.reverse]
  | '\r' :: '\n' :: rest, acc => acc.reverse :: splitlinesGo rest []
  | c :: rest, acc =>
      if lineBreakChar c then acc.reverse :: splitlinesGo rest []
      else splitlinesGo rest (c :: acc)

/-- Python `str.splitlines()` (with `keepends=False`): `text.splitlines()`
in `split_into_chapters`. -/
def pySplitlines (l : Text) : List Text := splitlinesGo l []

/-- Python `str.split()` worker: whitespace-separated words, empties dropped;
`acc` is the reversed current word. -/
def splitWSGo : Text → Text → List Text
  | [], acc => if acc = [] then [] else [acc.reverse]
  | c :: rest, acc =>
      if pyIsSpace c then
        if acc = [] then splitWSGo rest [] else acc.reverse :: splitWSGo rest []
      else splitWSGo rest (c :: acc)

/-- Python `str.split()` with no arguments. -/
def pySplitWS (l : Text) : List Text := splitWSGo l []

/-- Python `"\n".join`. -/
def joinNL : List Text → Text
  | [] => []
  | [l] => l
  | l :: ls => l ++ '\n' :: joinNL ls

/-! ## The text-cleaning rules (`clean_text`, `src/text_processor.py` 23-92)

Each Python `Rule` is `re.sub(pattern, repl, text, flags)`: replace every
non-overlapping occurrence, scanning left to right, continuing after each
replaced region.  The scanners below implement exactly that discipline; the
doc comment of each one quotes the pattern it embeds. -/

/-- NORMALIZE rule "curly single quotes": `[‘’‚‛‹›]` to the
apostrophe. -/
def normSingleQuotes (l : Text) : Text :=
  l.map fun c =>
    if c = '‘' ∨ c = '’' ∨ c = '‚' ∨ c = '‛' ∨ c = '‹' ∨ c = '›'
    then apos else c

/-- NORMALIZE rule "curly double quotes": `[“”„‟«»]` to `"`. -/
def normDoubleQuotes (l : Text) : Text :=
  l.map fun c =>
    if c = '“' ∨ c = '”' ∨ c = '„' ∨ c = '‟' ∨ c = '«' ∨ c = '»'
    then '"' else c

/-- NORMALIZE rule "unicode spaces": `[   -​  　]` to a
plain space. -/
def normUniSpaces (l : Text) : Text :=
  l.map fun c =>
    if c = '\u00A0' ∨ c = '\u1680' ∨ ('\u2000' ≤ c ∧ c ≤ '\u200B') ∨ c = '\u202F' ∨
       c = '\u205F' ∨ c = '\u3000'
    then ' ' else c

/-- NORMALIZE rule "ellipsis": `…` to `"..."`. -/
def normEllipsis : Text → Text
  | [] => []
  | c :: rest => if c = '…' then '.' :: '.' :: '.' :: normEllipsis rest
                 else c :: normEllipsis rest

/-- NORMALIZE rule "primes as apostrophes": ``([A-Za-z])[`´′]([A-Za-z])`` to `\1'\2`.
The match consumes all three characters, so scanning continues after the second
letter. -/
def normPrimes : Text → Text
  | a :: b :: c :: rest =>
      if isAlphaC a ∧ (b = backq ∨ b = '´' ∨ b = '′') ∧ isAlphaC c then
        a :: apos :: c :: normPrimes rest
      else a :: normPrimes (b :: c :: rest)
  | l => l

/-- NORMALIZE rules "1/4", "1/2", "3/4": the vulgar-fraction characters to ASCII. -/
def normFractions : Text → Text
  | [] => []
  | c :: rest =>
      if c = '¼' then '1' :: '/' :: '4' :: normFractions rest
      else if c = '½' then '1' :: '/' :: '2' :: normFractions rest
      else if c = '¾' then '3' :: '/' :: '4' :: normFractions rest
      else c :: normFractions rest

/-- The NORMALIZE stage, rules in source order. -/
def normalizeStage (l : Text) : Text :=
  normFractions (normPrimes (normEllipsis (normUniSpaces (normDoubleQuotes (normSingleQuotes l)))))

/-- One `re.sub(r"\bWORD\b", repl, text)` pass (`ci` selects `re.IGNORECASE`).
`prevW` tracks whether the previous character of the original text is a word
character (`\b` holds at a position iff that flag differs from the class of the
current character; all replaced words start and end with word characters).
After a replacement the scan resumes right after the matched word, whose last
character is a word character, hence `prevW := true`.  The `fuel` argument only
drives termination; `fuel = l.length` always suffices because every step
consumes at least one character. -/
def replaceWordGo (ci : Bool) (w repl : Text) : Nat → Bool → Text → Text
  | 0, _, l => l
  | _ + 1, _, [] => []
  | fuel + 1, prevW, c :: rest =>
      if ¬prevW ∧ w ≠ [] ∧
         (if ci then ciEq ((c :: rest).take w.length) w
          else decide ((c :: rest).take w.length = w)) ∧
         (∀ d ∈ ((c :: rest).drop w.length).head?.toList, ¬wordChar d) then
        repl ++ replaceWordGo ci w repl fuel true ((c :: rest).drop w.length)
      else c :: replaceWordGo ci w repl fuel (wordChar c) rest

/-- `re.sub` for one whole-word rule (see `replaceWordGo`). -/
def replaceWord (ci : Bool) (w repl l : Text) : Text :=
  replaceWordGo ci w repl l.length false l

/-- The MISREADS stage: `tbe/tbis/tbat/wbat/wbich/wbo`, all case-insensitive,
word-boundary anchored. -/
def misreadsStage (l : Text) : Text :=
  replaceWord true (str "wbo") (str "who")
    (replaceWord true (str "wbich") (str "which")
      (replaceWord true (str "wbat") (str "what")
        (replaceWord true (str "tbat") (str "that")
          (replaceWord true (str "tbis") (str "this")
            (replaceWord true (str "tbe") (str "the") l)))))

/-- The CONTRACTIONS stage, rules in source order (`Ill`, `I m`, `Ive` are
case-sensitive; the rest carry `re.IGNORECASE`). -/
def contractionsStage (l : Text) : Text :=
  replaceWord true (str "theyre") ('t' :: 'h' :: 'e' :: 'y' :: apos :: str "re")
    (replaceWord true (str "youre") ('y' :: 'o' :: 'u' :: apos :: str "re")
      (replaceWord false (str "Ive") ('I' :: apos :: str "ve")
        (replaceWord false (str "I m") ('I' :: apos :: str "m")
          (replaceWord false (str "Ill") ('I' :: apos :: str "ll")
            (replaceWord true (str "dont") ('d' :: 'o' :: 'n' :: apos :: str "t")
              (replaceWord true (str "wont") ('w' :: 'o' :: 'n' :: apos :: str "t")
                (replaceWord true (str "cant") ('c' :: 'a' :: 'n' :: apos :: str "t") l)))))))

/-- The CONFUSIONS stage, rules in source order (`rnake`, `rnany` carry
`re.IGNORECASE`; `0f`, `t0`, `0r` are case-sensitive). -/
def confusionsStage (l : Text) : Text :=
  replaceWord false (str "0r") (str "or")
    (replaceWord false (str "t0") (str "to")
      (replaceWord false (str "0f") (str "of")
        (replaceWord true (str "rnany") (str "many")
          (replaceWord true (str "rnake") (str "make") l))))

/-- The MERGED stage: `ofthe/andthe/inthe`, case-insensitive. -/
def mergedStage (l : Text) : Text :=
  replaceWord true (str "inthe") (str "in the")
    (replaceWord true (str "andthe") (str "and the")
      (replaceWord true (str "ofthe") (str "of the") l))

/-- HYPHENS_WRAP rule "soft hyphen": `­` removed. -/
def softHyphens (l : Text) : Text := l.filter (fun c => c ≠ '­')

/-- HYPHENS_WRAP rule "dash normalize": `[—–]` to `" - "`. -/
def dashNormalize : Text → Text
  | [] => []
  | c :: rest =>
      if c = '—' ∨ c = '–' then ' ' :: '-' :: ' ' :: dashNormalize rest
      else c :: dashNormalize rest

/-- HYPHENS_WRAP rule "EOL hyphen + lowercase": `([a-z])-\s*\r?\n\s*(?=[a-z])`
to `\1`.  After `-`, the greedy/backtracking `\s*\r?\n\s*` consumes exactly the
maximal whitespace run `M` (the lookahead pins its end at the first non-space
character), and it can succeed iff `M` contains a `\n`.  On a match the region
`letter - M` is replaced by the letter alone and the scan resumes at the
lookahead character.  `fuel = l.length` suffices (each step consumes ≥ 1
character). -/
def eolHyphenGo : Nat → Text → Text
  | 0, l => l
  | _ + 1, [] => []
  | fuel + 1, c :: rest =>
      if isLowerC c then
        match rest with
        | '-' :: r2 =>
            if (r2.takeWhile pyIsSpace).contains '\n' ∧
               (∀ d ∈ (r2.dropWhile pyIsSpace).head?.toList, isLowerC d) ∧
               (r2.dropWhile pyIsSpace) ≠ [] then
              c :: eolHyphenGo fuel (r2.dropWhile pyIsSpace)
            else c :: eolHyphenGo fuel rest
        | _ => c :: eolHyphenGo fuel rest
      else c :: eolHyphenGo fuel rest

/-- HYPHENS_WRAP rule "EOL hyphen + lowercase" (see `eolHyphenGo`). -/
def eolHyphen (l : Text) : Text := eolHyphenGo l.length l

/-- HYPHENS_WRAP rule "join simple wraps": `([a-z,;])\s*\r?\n(?=[a-z])` to
`"\1 "`.  Here `\s*\r?\n` must end with a `\n` whose immediate successor is the
lookahead's lowercase letter; since whitespace is not lowercase, the consumed
region is exactly the maximal whitespace run `M`, and the match succeeds iff
`M` ends with `\n` and the character after `M` is lowercase.  Replacement is
the class character plus one space; the scan resumes at the lookahead
character. -/
def joinWrapsGo : Nat → Text → Text
  | 0, l => l
  | _ + 1, [] => []
  | fuel + 1, c :: rest =>
      if isLowerC c ∨ c = ',' ∨ c = ';' then
        if (rest.takeWhile pyIsSpace).getLast? = some '\n' ∧
           (∀ d ∈ (rest.dropWhile pyIsSpace).head?.toList, isLowerC d) ∧
           (rest.dropWhile pyIsSpace) ≠ [] then
          c :: ' ' :: joinWrapsGo fuel (rest.dropWhile pyIsSpace)
        else c :: joinWrapsGo fuel rest
      else c :: joinWrapsGo fuel rest

/-- HYPHENS_WRAP rule "join simple wraps" (see `joinWrapsGo`). -/
def joinWraps (l : Text) : Text := joinWrapsGo l.length l

/-- HYPHENS_WRAP rule "inword hyphen + spaces":
`(\b[A-Za-z]+)-\s+([A-Za-z]+\b)` to `\1\2`.  `prevW` tracks whether the
previous original character is a word character (for the leading `\b`).  Both
letter runs are maximal (greedy runs followed by a mandatory non-class
character cannot profit from backtracking), `\s+` is the maximal nonempty
whitespace run, and the trailing `\b` requires the character after the second
run not to be a word character.  On a match the scan resumes after the second
letter run (so `prevW := true`). -/
def inwordHyphenGo : Nat → Bool → Text → Text
  | 0, _, l => l
  | _ + 1, _, [] => []
  | fuel + 1, prevW, c :: rest =>
      if ¬prevW ∧ isAlphaC c then
        match ((c :: rest).dropWhile isAlphaC) with
        | '-' :: r2 =>
            if (r2.takeWhile pyIsSpace) ≠ [] ∧
               ((r2.dropWhile pyIsSpace).takeWhile isAlphaC) ≠ [] ∧
               (∀ d ∈ (((r2.dropWhile pyIsSpace).dropWhile isAlphaC)).head?.toList,
                  ¬wordChar d) then
              ((c :: rest).takeWhile isAlphaC) ++
                ((r2.dropWhile pyIsSpace).takeWhile isAlphaC) ++
                inwordHyphenGo fuel true ((r2.dropWhile pyIsSpace).dropWhile isAlphaC)
            else c :: inwordHyphenGo fuel (wordChar c) rest
        | _ => c :: inwordHyphenGo fuel (wordChar c) rest
      else c :: inwordHyphenGo fuel (wordChar c) rest

/-- HYPHENS_WRAP rule "inword hyphen + spaces" (see `inwordHyphenGo`). -/
def inwordHyphen (l : Text) : Text := inwordHyphenGo l.length false l

/-- The HYPHENS_WRAP stage, rules in source order. -/
def hyphensStage (l : Text) : Text :=
  inwordHyphen (joinWraps (eolHyphen (dashNormalize (softHyphens l))))

/-- Sentence-ending punctuation class `[.?!]`. -/
def isSentEndC (c : Char) : Bool := c = '.' || c = '?' || c = '!'

/-- Punctuation class `[,.;:!?]`. -/
def isPunctC (c : Char) : Bool :=
  c = ',' || c = '.' || c = ';' || c = ':' || c = '!' || c = '?'

/-- WHITESPACE rule "trim trailing": `[ \t]+$` with `re.MULTILINE`, removed.
`$` matches before each `\n` and at the end of the text, so exactly the
maximal space/tab runs immediately followed by `\n` or the end disappear
(`pend` holds the current reversed run). -/
def trimTrailingGo : Text → Text → Text
  | _, [] => []
  | pend, c :: rest =>
      if c = ' ' ∨ c = '\t' then trimTrailingGo (c :: pend) rest
      else if c = '\n' then '\n' :: trimTrailingGo [] rest
      else pend.reverse ++ c :: trimTrailingGo [] rest

/-- WHITESPACE rule "trim trailing" (see `trimTrailingGo`). -/
def trimTrailing (l : Text) : Text := trimTrailingGo [] l

/-- WHITESPACE rule "collapse 3+ spaces": `[ \t]{3,}` to one space.  `pend`
holds the current reversed space/tab run; maximal runs of length at least 3
become `" "`, shorter runs are kept verbatim. -/
def collapseSpacesGo : Text → Text → Text
  | pend, [] => if pend.length ≥ 3 then [' '] else pend.reverse
  | pend, c :: rest =>
      if c = ' ' ∨ c = '\t' then collapseSpacesGo (c :: pend) rest
      else (if pend.length ≥ 3 then [' '] else pend.reverse) ++
        c :: collapseSpacesGo [] rest

/-- WHITESPACE rule "collapse 3+ spaces" (see `collapseSpacesGo`). -/
def collapseSpaces (l : Text) : Text := collapseSpacesGo [] l

/-- Flush for `collapseNewlinesGo`: a pending run of `n` line-break units
(`buf` is the consumed text, reversed) collapses to `"\n\n"` when `n ≥ 4` and
is kept verbatim otherwise. -/
def cnFlush (buf : Text) (n : Nat) : Text :=
  if n ≥ 4 then ['\n', '\n'] else buf.reverse

/-- WHITESPACE rule "collapse 4+ blank lines": `(?:\r?\n){4,}` to `"\n\n"`.
The scan counts maximal runs of `\r?\n` units: `buf` is the consumed run
(reversed), `n` the unit count, and `cr` records a pending `\r` that belongs
to the run only if a `\n` follows.  Greedy `{4,}` always consumes a maximal
unit run, and a maximal run of `n ≥ 4` units is replaced by two newlines. -/
def collapseNewlinesGo : Text → Nat → Bool → Text → Text
  | buf, n, cr, [] => cnFlush buf n ++ (if cr then ['\r'] else [])
  | buf, n, cr, c :: rest =>
      if c = '\n' then
        collapseNewlinesGo ((if cr then ['\n', '\r'] else ['\n']) ++ buf) (n + 1) false rest
      else if cr then
        cnFlush buf n ++ '\r' ::
          (if c = '\r' then collapseNewlinesGo [] 0 true rest
           else c :: collapseNewlinesGo [] 0 false rest)
      else if c = '\r' then collapseNewlinesGo buf n true rest
      else cnFlush buf n ++ c :: collapseNewlinesGo [] 0 false rest

/-- WHITESPACE rule "collapse 4+ blank lines" (see `collapseNewlinesGo`). -/
def collapseNewlines (l : Text) : Text := collapseNewlinesGo [] 0 false l

/-- WHITESPACE rule "no space before punct": `\s+([,.;:!?])` to `\1`.  `pend`
is the current reversed whitespace run; a maximal nonempty run followed by a
punctuation character is deleted (the punctuation is kept and the scan resumes
after it). -/
def noSpaceBeforePunctGo : Text → Text → Text
  | pend, [] => pend.reverse
  | pend, c :: rest =>
      if pyIsSpace c then noSpaceBeforePunctGo (c :: pend) rest
      else if isPunctC c ∧ pend ≠ [] then c :: noSpaceBeforePunctGo [] rest
      else pend.reverse ++ c :: noSpaceBeforePunctGo [] rest

/-- WHITESPACE rule "no space before punct" (see `noSpaceBeforePunctGo`). -/
def noSpaceBeforePunct (l : Text) : Text := noSpaceBeforePunctGo [] l

/-- WHITESPACE rule "space after sentence": `([.?!])([A-Z])` to `"\1 \2"`.
The match consumes both characters; the scan resumes after the capital. -/
def spaceAfterSentence : Text → Text
  | a :: b :: rest =>
      if isSentEndC a ∧ isUpperC b then a :: ' ' :: b :: spaceAfterSentence rest
      else a :: spaceAfterSentence (b :: rest)
  | l => l

/-- Flush for `collapsePeriodsGo`: a maximal run of `k` periods becomes
`"..."` when `k ≥ 4` and stays as is otherwise. -/
def cpFlush (k : Nat) : Text :=
  if k ≥ 4 then ['.', '.', '.'] else List.replicate k '.'

/-- WHITESPACE rule "collapse 4+ periods": `\.{4,}` to `"..."`.  `k` counts
the current period run. -/
def collapsePeriodsGo : Nat → Text → Text
  | k, [] => cpFlush k
  | k, c :: rest =>
      if c = '.' then collapsePeriodsGo (k + 1) rest
      else cpFlush k ++ c :: collapsePeriodsGo 0 rest

/-- WHITESPACE rule "collapse 4+ periods" (see `collapsePeriodsGo`). -/
def collapsePeriods (l : Text) : Text := collapsePeriodsGo 0 l

/-- Scanner state for `singleWordLines`.  `norm`: plain copying (`atStart`
is true at position 0 and right after every `\n` of the original text, where
multiline `^` matches); `word`: collecting the `\w+` run that opened a line
(reversed); `wsp`: after that run, collecting the following whitespace run
(both reversed). -/
inductive SwlState where
  | norm (atStart : Bool)
  | word (w : Text)
  | wsp (w m : Text)

/-- WHITESPACE rule "single word lines": `^(\w+)\s*\n(?=\w)` with
`re.MULTILINE`, to `"\1 "`.  The region `\s*\n` must end with a `\n`
immediately followed by the lookahead's word character; as whitespace is not a
word character this forces the consumed region to be exactly the maximal
whitespace run following the word, with `\n` as its last character.  On a
match the word plus one space is emitted and the scan resumes at the lookahead
character, which sits right after a `\n` of the original text — a fresh `^`
position. -/
def swlGo : SwlState → Text → Text
  | .norm _, [] => []
  | .word w, [] => w.reverse
  | .wsp w m, [] => w.reverse ++ m.reverse
  | .norm st, c :: rest =>
      if st ∧ wordChar c then swlGo (.word [c]) rest
      else c :: swlGo (.norm (c = '\n')) rest
  | .word w, c :: rest =>
      if wordChar c then swlGo (.word (c :: w)) rest
      else if pyIsSpace c then swlGo (.wsp w [c]) rest
      else w.reverse ++ c :: swlGo (.norm false) rest
  | .wsp w m, c :: rest =>
      if pyIsSpace c then swlGo (.wsp w (c :: m)) rest
      else if wordChar c ∧ m.head? = some '\n' then
        w.reverse ++ ' ' :: swlGo (.word [c]) rest
      else w.reverse ++ m.reverse ++ c :: swlGo (.norm false) rest

/-- WHITESPACE rule "single word lines" (see `swlGo`). -/
def singleWordLines (l : Text) : Text := swlGo (.norm true) l

/-- The WHITESPACE stage, rules in source order. -/
def whitespaceStage (l : Text) : Text :=
  singleWordLines (collapsePeriods (spaceAfterSentence (noSpaceBeforePunct
    (collapseNewlines (collapseSpaces (trimTrailing l))))))

/-- `clean_text` (`src/text_processor.py` 87-92): the seven stage groups in
pipeline order, then `str.strip()`. -/
def clean_text (l : Text) : Text :=
  pyStrip (whitespaceStage (hyphensStage (mergedStage (confusionsStage
    (contractionsStage (misreadsStage (normalizeStage l)))))))

/-! ## Roman numerals and chapter-number parsing
(`src/text_processor.py` 291-309) -/

/-- The value table `vals` of `roman_to_int` (`.get(ch, 0)` semantics: unknown
characters count 0). -/
def romanVal (c : Char) : Nat :=
  if c = 'I' then 1 else if c = 'V' then 5 else if c = 'X' then 10
  else if c = 'L' then 50 else if c = 'C' then 100 else if c = 'D' then 500
  else if c = 'M' then 1000 else 0

/-- One step of the right-to-left scan of `roman_to_int`: subtract a value
smaller than the previous added value, otherwise add it and remember it. -/
def romanStep (acc : Int × Nat) (ch : Char) : Int × Nat :=
  let v := romanVal (pyUpperChar ch)
  if v < acc.2 then (acc.1 - (v : Int), acc.2) else (acc.1 + (v : Int), v)

/-- `roman_to_int` (`src/text_processor.py` 291-304): uppercase the token and
scan it right to left with `romanStep`; `return total if total else 0` is the
identity on integers. -/
def roman_to_int (s : Text) : Int :=
  (s.reverse.foldl romanStep (0, 0)).1

/-- Python `str.isdigit` restricted to the decimal-digit alphabet of the
model (ASCII `0-9`): nonempty and all decimal digits.  The full digit
classification — including digit-like characters that are *not* decimal
digits, on which `int()` raises — is `pyIsDigitStrFull`, used by the
exception-checked embedding. -/
def pyIsDigitStr (s : Text) : Bool := s ≠ [] && s.all isDigitC

/-- Python `int(s)` for a digit string. -/
def decimalVal (s : Text) : Nat :=
  s.foldl (fun a c => 10 * a + (c.toNat - '0'.toNat)) 0

/-- `parse_chapter_number` (`src/text_processor.py` 306-309): strip, then
decimal for pure digit strings, otherwise `roman_to_int`. -/
def parse_chapter_number (s : Text) : Int :=
  if pyIsDigitStr (pyStrip s) then (decimalVal (pyStrip s) : Int)
  else roman_to_int (pyStrip s)

/-- Abstraction of a compiled Python pattern, as used by
`split_into_chapters`. -/
structure Regex where
  numGroups : Nat
  matchFn : Text → Option (Nat → Option Text)

/-- Regex `[ivxlcdm]` with `re.IGNORECASE`. -/
def isRomanC (c : Char) : Bool :=
  c = 'i' || c = 'v' || c = 'x' || c = 'l' || c = 'c' || c = 'd' || c = 'm' ||
  c = 'I' || c = 'V' || c = 'X' || c = 'L' || c = 'C' || c = 'D' || c = 'M'

/-- Separator class `[\s:.\-—–]` of the default heading pattern's title part. -/
def isSepC (c : Char) : Bool :=
  pyIsSpace c || c = ':' || c = '.' || c = '-' || c = '—' || c = '–'

/-- The alternation `(?:chapter|chap\.?)` of the default heading pattern (and
of the nested `re.search` of the secondary heuristic), `re.IGNORECASE`:
returns the rest of the line after the keyword.  Python tries `chapter` with
the whole continuation first and falls back to `chap\.?`; for the
continuations used here (`\s+...`) the fallback can only succeed when
`chapter` did not match (after `chap` the next characters are `te`, on which
both `\.?` alternatives leave a non-space), so committing to the first
matching alternative is equivalent. -/
def chapKeyword (l : Text) : Option Text :=
  if ciStarts (str "chapter") l then some (l.drop 7)
  else if ciStarts (str "chap") l then
    match l.drop 4 with
    | '.' :: r => some r
    | r => some r
  else none

/-- The optional title tail `(?:[\s:.\-—–]+(.+))?$` of the default heading
pattern, applied after the `\b` following group 1: on empty rest the group is
absent; otherwise the greedy separator run must be nonempty, and `(.+)` takes
everything after it (when the separators reach the end of the line, the run
gives back its last character to `(.+)` if it can stay nonempty, else the
whole line fails to match).  Lines passed here come from `splitlines` and so
contain no newline. -/
def chapTitleTail (rest : Text) : Option (Option Text) :=
  match rest with
  | [] => some none
  | _ :: _ =>
      if rest.takeWhile isSepC = [] then none
      else
        match rest.dropWhile isSepC with
        | [] => if rest.length ≥ 2 then some (some (rest.drop (rest.length - 1))) else none
        | t => some (some t)

/-- `CHAPTER_RE_DEFAULT.match(line)` (`src/text_processor.py` 242-245):
`^\s*(?:chapter|chap\.?)\s+([ivxlcdm]+|\d+)\b(?:[\s:.\-—–]+(.+))?$` with
`re.IGNORECASE`.  Group 1 is the maximal `[ivxlcdm]` run when nonempty and
followed by a non-word character, else the maximal digit run under the same
boundary condition (shorter greedy runs always leave a word character next, so
backtracking inside a run cannot help, and the two alternatives start with
disjoint character classes). -/
def chapDefaultMatch (l : Text) : Option (Text × Option Text) :=
  match chapKeyword (l.dropWhile pyIsSpace) with
  | none => none
  | some r2 =>
      if r2.takeWhile pyIsSpace = [] then none
      else
        let r3 := r2.dropWhile pyIsSpace
        if r3.takeWhile isRomanC ≠ [] ∧
           (∀ d ∈ (r3.dropWhile isRomanC).head?.toList, ¬wordChar d) then
          (chapTitleTail (r3.dropWhile isRomanC)).map (fun t => (r3.takeWhile isRomanC, t))
        else if r3.takeWhile isDigitC ≠ [] ∧
           (∀ d ∈ (r3.dropWhile isDigitC).head?.toList, ¬wordChar d) then
          (chapTitleTail (r3.dropWhile isDigitC)).map (fun t => (r3.takeWhile isDigitC, t))
        else none

/-- `CHAPTER_RE_DEFAULT` as an abstract `Regex` (2 capture groups). -/
def CHAPTER_RE_DEFAULT : Regex where
  numGroups := 2
  matchFn l := (chapDefaultMatch l).map fun g n =>
    if n = 1 then some g.1 else if n = 2 then g.2 else none

/-- `PAGE_NUMBER_PATTERNS[0].match(line)`: `^\s*(\d{1,3})\s*$` (1 group).
The maximal digit run must have length 1-3 (a longer run leaves a digit for
`\s*$` under every `{1,3}` choice) and only whitespace may follow. -/
def pageP0 (l : Text) : Option Text :=
  let a := l.dropWhile pyIsSpace
  let d := a.takeWhile isDigitC
  if d ≠ [] ∧ d.length ≤ 3 ∧ (a.dropWhile isDigitC).all pyIsSpace then some d
  else none

/-- The tail `\s*[- or slash]\s*(\d{1,3})\s*$` shared by page patterns 1 and 3:
whitespace, one `-` or `/`, whitespace, a 1-3 digit maximal run, trailing
whitespace. -/
def pageSepNumTail (r : Text) : Option Text :=
  match r.dropWhile pyIsSpace with
  | c :: a2 =>
      if c = '-' ∨ c = '/' then
        let b := a2.dropWhile pyIsSpace
        let d := b.takeWhile isDigitC
        if d ≠ [] ∧ d.length ≤ 3 ∧ (b.dropWhile isDigitC).all pyIsSpace then some d
        else none
      else none
  | [] => none

/-- Worker for `pageP1`: the lazy `(.+?)` grows one character at a time (its
reversed text is `g1rev`) until the tail matches; `.` never matches a newline,
so a newline ends the search. -/
def pageP1Go : Text → Text → Option (Text × Text)
  | _, [] => none
  | g1rev, c :: rest =>
      if c = '\n' then none
      else
        match pageSepNumTail rest with
        | some d => some ((c :: g1rev).reverse, d)
        | none => pageP1Go (c :: g1rev) rest

/-- `PAGE_NUMBER_PATTERNS[1].match(line)`: `^(.+?)\s*[- or slash]\s*(\d{1,3})\s*$`
(2 groups): the shortest nonempty prefix such that the rest matches the
separator/number tail. -/
def pageP1 (l : Text) : Option (Text × Text) := pageP1Go [] l

/-- `PAGE_NUMBER_PATTERNS[2].match(line)`: `^(\d{1,3})\s+(.+)$` (2 groups).
The maximal digit run must have length 1-3; then a nonempty whitespace run;
`(.+)` takes the nonempty rest (when the whitespace reaches the end of the
line, `\s+` gives back its last character to `(.+)` when it can stay
nonempty). -/
def pageP2 (l : Text) : Option (Text × Text) :=
  let d := l.takeWhile isDigitC
  let r := l.dropWhile isDigitC
  if d = [] ∨ d.length > 3 then none
  else
    let w := r.takeWhile pyIsSpace
    if w = [] then none
    else
      match r.dropWhile pyIsSpace with
      | [] => if w.length ≥ 2 then some (d, r.drop (r.length - 1)) else none
      | t => some (d, t)

/-- `PAGE_NUMBER_PATTERNS[3].match(line)`:
`^(chapter\s+[ivxlcdm]+)\s*[- or slash]\s*(\d{1,3})\s*$` with `re.IGNORECASE`
(2 groups).  Group 1 keeps the original spelling of
`chapter<spaces><numeral-run>`. -/
def pageP3 (l : Text) : Option (Text × Text) :=
  if ciStarts (str "chapter") l then
    let r := l.drop 7
    let w := r.takeWhile pyIsSpace
    if w = [] then none
    else
      let r2 := r.dropWhile pyIsSpace
      let rom := r2.takeWhile isRomanC
      if rom = [] then none
      else
        (pageSepNumTail (r2.dropWhile isRomanC)).map
          (fun d => (l.take (7 + w.length + rom.length), d))
  else none

/-- `is_page_number_line` (`src/text_processor.py` 281-289): strip the line
and test the four `PAGE_NUMBER_PATTERNS` in order. -/
def is_page_number_line (line : Text) : Bool :=
  (pageP0 (pyStrip line)).isSome || (pageP1 (pyStrip line)).isSome ||
  (pageP2 (pyStrip line)).isSome || (pageP3 (pyStrip line)).isSome

/-! ## Book-title filtering (`is_book_title_line`, `src/text_processor.py`
259-279) -/

/-- Python `str.isupper` on ASCII text: at least one cased character and no
lowercase character. -/
def pyIsUpperS (l : Text) : Bool :=
  l.any isAlphaC && l.all (fun c => ¬isLowerC c)

/-- `is_book_title_line(line, book_title)` (`src/text_processor.py` 259-279).
The first branch compares the uppercased stripped line with the uppercased
stripped title.  The second branch (line `isupper`, longer than 5) compares
word sets of the lowercased texts; Python's `overlap / len(title_words) > 0.7`
on floats agrees with the rational comparison `10 * overlap > 7 * |title_words|`
for the small word-set sizes involved (`0.7` and `n/m` round to the same
double exactly when the rational comparison says so). -/
def is_book_title_line (line bookTitle : Text) : Bool :=
  if pyUpperS (pyStrip line) = pyUpperS (pyStrip bookTitle) then true
  else if pyIsUpperS (pyStrip line) ∧ (pyStrip line).length > 5 then
    let lw := (pySplitWS (pyLowerS (pyStrip line))).dedup
    let tw := (pySplitWS (pyLowerS (pyStrip bookTitle))).dedup
    if tw.length > 0 then
      decide (10 * (lw.filter (fun w => w ∈ tw)).length > 7 * tw.length)
    else false
  else false

/-! ## The chapter scan (`split_into_chapters`, `src/text_processor.py`
311-383) -/

/-- A recorded heading hit `(i, parse_chapter_number(num_raw), title)`. -/
structure Hit where
  idx : Nat
  num : Int
  title : Text
  deriving DecidableEq, Repr

/-- The group `([ivxlcdm]+|\d+)` of the nested
`re.search(r'(?:chapter|chap\.?)\s+([ivxlcdm]+|\d+)', ...)`: after `\s+`, the
maximal numeral run (Roman preferred, then digits), with no trailing
constraint. -/
def chapSearchNum (r : Text) : Option Text :=
  if r.takeWhile pyIsSpace = [] then none
  else
    let r2 := r.dropWhile pyIsSpace
    if r2.takeWhile isRomanC ≠ [] then some (r2.takeWhile isRomanC)
    else if r2.takeWhile isDigitC ≠ [] then some (r2.takeWhile isDigitC)
    else none

/-- `re.search(r'(?:chapter|chap\.?)\s+([ivxlcdm]+|\d+)', t, re.IGNORECASE)`
(`src/text_processor.py` 353): try a match at every position, left to right,
returning group 1. -/
def chapterSearch : Text → Option Text
  | [] => none
  | c :: rest =>
      match (chapKeyword (c :: rest)).bind chapSearchNum with
      | some g => some g
      | none => chapterSearch rest

/-- One iteration of the secondary-heuristic loop body
(`src/text_processor.py` 342-357) for a pattern that produced a 2-group match
`(g1, g2)`: strip group 1; require length > 3, not a pure digit string, and a
`chapter`/`part`/`section` substring of its lowercase; then search for the
embedded chapter token.  `none` means the loop continues with the next
pattern (no `break` happens unless a hit is appended). -/
def secondaryHit (i : Nat) : Option (Text × Text) → Option Hit
  | none => none
  | some (g1, _) =>
      let pt := pyStrip g1
      if pt.length > 3 ∧ ¬pyIsDigitStr pt ∧
         (containsSeq (str "chapter") (pyLowerS pt) ∨
          containsSeq (str "part") (pyLowerS pt) ∨
          containsSeq (str "section") (pyLowerS pt)) then
        match chapterSearch pt with
        | some numRaw => some ⟨i, parse_chapter_number numRaw, pt⟩
        | none => none
      else none

/-- The `for pattern in PAGE_NUMBER_PATTERNS` loop of the secondary heuristic
(`src/text_processor.py` 340-357): pattern 0 has a single group (the
`len(match.groups()) == 2` guard skips it); patterns 1-3 are tried in order
until one records a hit. -/
def secondaryScan (lc : Text) (i : Nat) : Option Hit :=
  match secondaryHit i (pageP1 lc) with
  | some h => some h
  | none =>
      match secondaryHit i (pageP2 lc) with
      | some h => some h
      | none => secondaryHit i (pageP3 lc)

/-- The per-line body of the scan loop of `split_into_chapters`
(`src/text_processor.py` 316-357): skip empty lines, book-title lines (only
when `book_title` is truthy) and page-number lines; then try the active
heading pattern (groups 1 and 2, with `m.group(1) or ""` and
`m.group(2) or f"Chapter {num_raw}"`, title stripped); otherwise the
secondary heuristic. -/
def scanLine (re : Regex) (bt : Text) (i : Nat) (line : Text) : Option Hit :=
  let lc := pyStrip line
  if lc = [] then none
  else if bt ≠ [] ∧ is_book_title_line lc bt then none
  else if is_page_number_line lc then none
  else
    match re.matchFn lc with
    | some g =>
        let numRaw := (g 1).getD []
        some ⟨i, parse_chapter_number numRaw,
              pyStrip ((g 2).getD (str "Chapter " ++ numRaw))⟩
    | none => secondaryScan lc i

/-- The scan loop: `for i, line in enumerate(lines)`, collecting hits. -/
def mkHitsGo (re : Regex) (bt : Text) : Nat → List Text → List Hit
  | _, [] => []
  | i, l :: rest =>
      match scanLine re bt i l with
      | some h => h :: mkHitsGo re bt (i + 1) rest
      | none => mkHitsGo re bt (i + 1) rest

/-- All heading hits of a line list. -/
def mkHits (re : Regex) (bt : Text) (lines : List Text) : List Hit :=
  mkHitsGo re bt 0 lines

/-- Keep predicate of the body loop (`src/text_processor.py` 371-378): a line
survives unless it is a book-title line (with truthy `book_title`) or a
page-number line; the original (unstripped) line is kept. -/
def keepBodyLine (bt : Text) (l : Text) : Bool :=
  ¬((bt ≠ [] ∧ is_book_title_line (pyStrip l) bt) ∨ is_page_number_line (pyStrip l))

/-- `content_lines` for the span `(s, e)`: the lines with indices
`s+1 .. e-1`, filtered by `keepBodyLine`. -/
def bodyLines (lines : List Text) (bt : Text) (s e : Nat) : List Text :=
  ((lines.drop (s + 1)).take (e - (s + 1))).filter (keepBodyLine bt)

/-- A chapter record `{"number": ..., "title": ..., "content": ...}`. -/
structure Chapter where
  number : Int
  title : Text
  content : Text
  deriving DecidableEq, Repr

/-- The chapter built from hit `h` (at 0-based emission position `pos`) whose
span ends at line `e`: `num or (idx+1)` picks the parsed number unless it is
zero (the only falsy `int`), and the body is the joined, stripped kept
lines. -/
def mkChapter (lines : List Text) (bt : Text) (h : Hit) (pos e : Nat) : Chapter :=
  ⟨if h.num ≠ 0 then h.num else (pos + 1 : Nat),
   h.title,
   pyStrip (joinNL (bodyLines lines bt h.idx e))⟩

/-- The pairing loop `for idx in range(len(hits)-1)` over
`hits + [sentinel]` (`src/text_processor.py` 362-381): each hit's span ends
at the next hit's line, the last at `len(lines)`. -/
def buildChapters (lines : List Text) (bt : Text) : List Hit → Nat → List Chapter
  | [], _ => []
  | [h], pos => [mkChapter lines bt h pos lines.length]
  | h1 :: h2 :: rest, pos =>
      mkChapter lines bt h1 pos h2.idx :: buildChapters lines bt (h2 :: rest) (pos + 1)

/-- `split_into_chapters(text, chapter_re, book_title)`
(`src/text_processor.py` 311-383). -/
def split_into_chapters (text : Text) (re : Regex) (bt : Text) : List Chapter :=
  buildChapters (pySplitlines text) bt (mkHits re bt (pySplitlines text)) 0

/-! ## The exception-checked scan

Two operations of the scan can raise: `m.group(i)` raises `IndexError` when
the compiled pattern defines fewer than `i` groups, and `int(num_raw)` inside
`parse_chapter_number` raises `ValueError` when `num_raw.strip()` is
isdigit-true but contains a digit-like non-decimal character (a superscript or
subscript digit).  The checked variants below model both fallible operations:
`none` is an uncaught exception, `some` a normal return.  The secondary
heuristic calls `parse_chapter_number` only after one of the fixed 2-group
page patterns matched the line, which the `is_page_number_line` guard has
already ruled out (`secondaryScan_none_of_not_page` below), so it performs no
fallible operation. -/

/-- `scanLine` with the book-title test removed (the heading test and the
page-number test only). -/
def scanLineNF (re : Regex) (i : Nat) (line : Text) : Option Hit :=
  let lc := pyStrip line
  if lc = [] then none
  else if is_page_number_line lc then none
  else
    match re.matchFn lc with
    | some g =>
        let numRaw := (g 1).getD []
        some ⟨i, parse_chapter_number numRaw,
              pyStrip ((g 2).getD (str "Chapter " ++ numRaw))⟩
    | none => secondaryScan lc i

/-- The scan loop without title filtering. -/
def mkHitsGoNF (re : Regex) : Nat → List Text → List Hit
  | _, [] => []
  | i, l :: rest =>
      match scanLineNF re i l with
      | some h => h :: mkHitsGoNF re (i + 1) rest
      | none => mkHitsGoNF re (i + 1) rest

/-- Body filter without title filtering: only page-number lines are dropped. -/
def keepBodyLineNF (l : Text) : Bool := ¬is_page_number_line (pyStrip l)

/-- `content_lines` without title filtering. -/
def bodyLinesNF (lines : List Text) (s e : Nat) : List Text :=
  ((lines.drop (s + 1)).take (e - (s + 1))).filter keepBodyLineNF

/-- Chapter construction without title filtering. -/
def mkChapterNF (lines : List Text) (h : Hit) (pos e : Nat) : Chapter :=
  ⟨if h.num ≠ 0 then h.num else (pos + 1 : Nat),
   h.title,
   pyStrip (joinNL (bodyLinesNF lines h.idx e))⟩

/-- The pairing loop without title filtering. -/
def buildChaptersNF (lines : List Text) : List Hit → Nat → List Chapter
  | [], _ => []
  | [h], pos => [mkChapterNF lines h pos lines.length]
  | h1 :: h2 :: rest, pos =>
      mkChapterNF lines h1 pos h2.idx :: buildChaptersNF lines (h2 :: rest) (pos + 1)

/-- `split_into_chapters` with every book-title test removed. -/
def split_into_chaptersNF (text : Text) (re : Regex) : List Chapter :=
  buildChaptersNF (pySplitlines text) (mkHitsGoNF re 0 (pySplitlines text)) 0

/-! ## The per-document boundary layer (`process_files`, `src/app.py`
339-368, content slice)

Only the content-related behaviour is modelled: the document skeleton's
`content` section (`skeleton_doc` / `build_doc` set `full_text` to the cleaned
text and leave `table_of_contents` and `chapters` empty), the custom-pattern
compilation guard, and the chapter-splitting block.  `re.compile` of the
user-supplied pattern is an external fallible operation, abstracted as a
`compile` oracle (`none` = `re.error` raised). -/

/-- A `table_of_contents` entry `{"level": 1, "title": ..., "section_id":
f"ch-{i+1}"}`. -/
structure TocEntry where
  level : Nat
  title : Text
  sectionId : Text
  deriving DecidableEq, Repr

/-- The `content` section of the document record. -/
structure ContentRec where
  tableOfContents : List TocEntry
  chapters : List Chapter
  fullText : Text
  deriving DecidableEq, Repr

/-- `build_doc`'s content section (`src/text_processor.py` 186, 480):
empty table of contents and chapter list, `full_text` = cleaned text. -/
def build_doc_content (cleaned : Text) : ContentRec := ⟨[], [], cleaned⟩

/-- The heading-pattern selection of `process_files` (`src/app.py` 350-356):
start from the default; when the stripped custom pattern is truthy, try
compiling it, falling back to the default with a warning on `re.error`. -/
def selectChapterRe (compile : Text → Option Regex) (customRegex : Text) :
    Regex × Bool :=
  if customRegex ≠ [] ∧ pyStrip customRegex ≠ [] then
    match compile (pyStrip customRegex) with
    | some r => (r, false)
    | none => (CHAPTER_RE_DEFAULT, true)
  else (CHAPTER_RE_DEFAULT, false)

/-- The `table_of_contents` derivation of `process_files` (`src/app.py`
362-365): one entry per chapter, in order, `{"level": 1, "title": c["title"],
"section_id": f"ch-{i+1}"}` for the chapter at 0-based position `i`. -/
def tocOfGo : Nat → List Chapter → List TocEntry
  | _, [] => []
  | i, ch :: rest =>
      ⟨1, ch.title, str "ch-" ++ (toString (i + 1)).data⟩ :: tocOfGo (i + 1) rest

/-- `table_of_contents` for a chapter list (see `tocOfGo`). -/
def tocOf (chs : List Chapter) : List TocEntry := tocOfGo 0 chs

/-- The chapter-splitting block of `process_files` (`src/app.py` 349-368) for
one document, starting from `build_doc`'s content: when splitting is enabled
and the cleaned text has content, run `split_into_chapters` with the selected
pattern and the document title; a non-empty result replaces `chapters`,
derives `table_of_contents` 1:1 and clears `full_text`.  The second component
reports whether the invalid-pattern warning fired. -/
def process_files_content (cleaned : Text) (splitEnabled : Bool)
    (compile : Text → Option Regex) (customRegex : Text) (bookTitle : Text) :
    ContentRec × Bool :=
  if splitEnabled ∧ pyStrip cleaned ≠ [] then
    if split_into_chapters cleaned (selectChapterRe compile customRegex).1 bookTitle ≠ []
    then
      (⟨tocOf (split_into_chapters cleaned (selectChapterRe compile customRegex).1
          bookTitle),
        split_into_chapters cleaned (selectChapterRe compile customRegex).1 bookTitle,
        []⟩,
       (selectChapterRe compile customRegex).2)
    else (build_doc_content cleaned, (selectChapterRe compile customRegex).2)
  else (build_doc_content cleaned, false)

/-! ## Runs of a repeated character

`run4free c l` states that `l` contains no four consecutive occurrences of
`c` — at every position holding `c`, at most two further `c`s follow. -/

/-- Length of the leading run of `c` in `l`. -/
def leadRun (c : Char) : Text → Nat
  | [] => 0
  | d :: r => if d = c then leadRun c r + 1 else 0

/-- Length of the trailing run of `c` in `l`. -/
def trailRun (c : Char) (l : Text) : Nat := leadRun c l.reverse

/-- No run of 4 (or more) consecutive `c`s. -/
def run4free (c : Char) : Text → Prop
  | [] => True
  | d :: r => run4free c r ∧ (d = c → leadRun c r ≤ 2)

/-- The text a `singleWordLines` scanner state still owes to the output. -/
def swlStateText : SwlState → Text
  | .norm _ => []
  | .word w => w.reverse
  | .wsp w m => w.reverse ++ m.reverse

/-- Invariant of the `singleWordLines` scanner: the word buffer is a nonempty
run of word characters, the whitespace buffer holds whitespace. -/
def SwlInv : SwlState → Prop
  | .norm _ => True
  | .word w => w ≠ [] ∧ ∀ x ∈ w, wordChar x = true
  | .wsp w m => (w ≠ [] ∧ ∀ x ∈ w, wordChar x = true) ∧ ∀ x ∈ m, pyIsSpace x = true

theorem run4free_nil (c : Char) : run4free c [] := trivial

theorem run4free_cons {c d : Char} {r : Text} :
    run4free c (d :: r) ↔ run4free c r ∧ (d = c → leadRun c r ≤ 2) := Iff.rfl

theorem leadRun_le_append (c : Char) (a b : Text) :
    leadRun c a ≤ leadRun c (a ++ b) := by
  induction a with
  | nil => simp [leadRun]
  | cons d a ih =>
      by_cases h : d = c
      · simpa [leadRun, h] using ih
      · simp [leadRun, h]

theorem leadRun_all {c : Char} {a : Text} (h : ∀ x ∈ a, x = c) :
    leadRun c a = a.length := by
  induction a with
  | nil => simp [leadRun]
  | cons d a ih =>
      have hd : d = c := h d (by simp)
      have hrest : ∀ x ∈ a, x = c := fun x hx => h x (by simp [hx])
      simp [leadRun, hd, ih hrest]

theorem leadRun_append_all {c : Char} {a : Text} (b : Text)
    (h : ∀ x ∈ a, x = c) : leadRun c (a ++ b) = a.length + leadRun c b := by
  induction a with
  | nil => simp
  | cons d a ih =>
      have hd : d = c := h d (by simp)
      have hrest : ∀ x ∈ a, x = c := fun x hx => h x (by simp [hx])
      simp [leadRun, hd, ih hrest]
      omega

theorem leadRun_append_not_all {c : Char} {a : Text} (b : Text)
    (h : ¬∀ x ∈ a, x = c) : leadRun c (a ++ b) = leadRun c a := by
  induction a with
  | nil => exact absurd (by simp) h
  | cons d a ih =>
      by_cases hd : d = c
      · have hrest : ¬∀ x ∈ a, x = c := by
          intro ha
          apply h
          intro x hx
          rcases List.mem_cons.mp hx with hx | hx
          · exact hx.trans hd
          · exact ha x hx
        simp [leadRun, hd, ih hrest]
      · simp [leadRun, hd]

theorem trailRun_all {c : Char} {a : Text} (h : ∀ x ∈ a, x = c) :
    trailRun c a = a.length := by
  have : ∀ x ∈ a.reverse, x = c := fun x hx => h x (List.mem_reverse.mp hx)
  simpa [trailRun] using leadRun_all this

theorem trailRun_cons_le (c d : Char) (a : Text) :
    trailRun c a ≤ trailRun c (d :: a) := by
  simpa [trailRun] using leadRun_le_append c a.reverse [d]

theorem run4free_append_left {c : Char} {a b : Text} :
    run4free c (a ++ b) → run4free c a ∧ run4free c b := by
  induction a with
  | nil => exact fun h => ⟨trivial, h⟩
  | cons d a ih =>
      intro h
      rcases h with ⟨h1, h2⟩
      rcases ih h1 with ⟨ha, hb⟩
      exact ⟨⟨ha, fun hd => le_trans (leadRun_le_append c a b) (h2 hd)⟩, hb⟩

theorem run4free_infix {c : Char} {l₁ l₂ : Text} (h : l₁ <:+: l₂)
    (hr : run4free c l₂) : run4free c l₁ := by
  rcases h with ⟨s, t, rfl⟩
  rw [List.append_assoc] at hr
  exact (run4free_append_left (run4free_append_left hr).2).1

theorem run4free_leadRun_le {c : Char} {l : Text} (h : run4free c l) :
    leadRun c l ≤ 3 := by
  cases l with
  | nil => simp [leadRun]
  | cons d r =>
      by_cases hd : d = c
      · have := h.2 hd
        simp only [leadRun, if_pos hd]
        omega
      · simp [leadRun, hd]

theorem leadRun_le_count (c : Char) (l : Text) : leadRun c l ≤ l.count c := by
  induction l with
  | nil => simp [leadRun]
  | cons d r ih =>
      by_cases hd : d = c
      · simp only [leadRun, if_pos hd, List.count_cons, hd]
        simp
        omega
      · simp [leadRun, hd]

theorem run4free_of_count {c : Char} {l : Text} (h : l.count c ≤ 3) :
    run4free c l := by
  induction l with
  | nil => trivial
  | cons d r ih =>
      have hc : r.count c ≤ 3 := by
        simp [List.count_cons] at h
        omega
      refine ⟨ih hc, fun hd => ?_⟩
      have h1 := leadRun_le_count c r
      simp [List.count_cons, hd] at h
      omega

theorem run4free_append {c : Char} {a b : Text} (ha : run4free c a)
    (hb : run4free c b) (hj : trailRun c a + leadRun c b ≤ 3) :
    run4free c (a ++ b) := by
  induction a with
  | nil => simpa using hb
  | cons d a ih =>
      have htr : trailRun c a ≤ trailRun c (d :: a) := trailRun_cons_le c d a
      refine ⟨ih ha.1 (by omega), fun hd => ?_⟩
      show leadRun c (a ++ b) ≤ 2
      by_cases hall : ∀ x ∈ a, x = c
      · have h1 : trailRun c (d :: a) = a.length + 1 := by
          have hdc : ∀ x ∈ d :: a, x = c := by
            intro x hx
            rcases List.mem_cons.mp hx with hx | hx
            · exact hx.trans hd
            · exact hall x hx
          simpa using trailRun_all hdc
        rw [leadRun_append_all b hall]
        omega
      · rw [leadRun_append_not_all b hall]
        exact ha.2 hd

theorem run4free_reverse {c : Char} {l : Text} (h : run4free c l) :
    run4free c l.reverse := by
  induction l with
  | nil => trivial
  | cons d r ih =>
      simp only [List.reverse_cons]
      refine run4free_append (ih h.1) ⟨trivial, by simp [leadRun]⟩ ?_
      have htr : trailRun c r.reverse = leadRun c r := by simp [trailRun]
      by_cases hd : d = c
      · have h2 := h.2 hd
        simp [htr, leadRun, hd]
        omega
      · have h3 := run4free_leadRun_le h.1
        simp [htr, leadRun, hd]
        omega

theorem trailRun_le_of_run4free {c : Char} {l : Text} (h : run4free c l) :
    trailRun c l ≤ 3 :=
  run4free_leadRun_le (run4free_reverse h)

theorem run4free_of_not_mem {c : Char} {l : Text} (h : ∀ x ∈ l, x ≠ c) :
    run4free c l := by
  refine run4free_of_count ?_
  have : l.count c = 0 := List.count_eq_zero.mpr (fun hc => h c hc rfl)
  omega

theorem leadRun_eq_zero {c : Char} {l : Text} (h : ∀ x ∈ l, x ≠ c) :
    leadRun c l = 0 := by
  cases l with
  | nil => rfl
  | cons d r => simp [leadRun, h d (by simp)]

theorem trailRun_eq_zero {c : Char} {l : Text} (h : ∀ x ∈ l, x ≠ c) :
    trailRun c l = 0 :=
  leadRun_eq_zero (fun x hx => h x (List.mem_reverse.mp hx))

theorem cnFlush_run4free {buf : Text} {n : Nat} (h : buf.count '\n' = n) :
    run4free '\n' (cnFlush buf n) ∧ trailRun '\n' (cnFlush buf n) ≤ 3 := by
  unfold cnFlush
  by_cases hn : n ≥ 4
  · simp only [if_pos hn]
    exact ⟨⟨⟨trivial, by simp [leadRun]⟩, by simp [leadRun]⟩, by simp [trailRun, leadRun]⟩
  · simp only [if_neg hn]
    constructor
    · exact run4free_of_count (by rw [List.count_reverse]; omega)
    · have h1 : trailRun '\n' buf.reverse = leadRun '\n' buf := by
        simp [trailRun]
      have h2 := leadRun_le_count '\n' buf
      omega

theorem collapseNewlinesGo_run4free :
    ∀ (l buf : Text) (n : Nat) (cr : Bool), buf.count '\n' = n →
      run4free '\n' (collapseNewlinesGo buf n cr l) := by
  intro l
  induction l with
  | nil =>
      intro buf n cr h
      rcases cnFlush_run4free h with ⟨h1, h2⟩
      cases cr
      · simpa [collapseNewlinesGo] using h1
      · simp only [collapseNewlinesGo]
        refine run4free_append h1 ⟨trivial, by simp⟩ ?_
        show trailRun '\n' (cnFlush buf n) + leadRun '\n' ['\r'] ≤ 3
        have h3 : leadRun '\n' ['\r'] = 0 := by decide
        omega
  | cons c rest ih =>
      intro buf n cr h
      by_cases hc : c = '\n'
      · have hcount :
            ((if cr then ['\n', '\r'] else ['\n']) ++ buf).count '\n' = n + 1 := by
          cases cr <;> simp [List.count_append, h, List.count_cons]
        simpa [collapseNewlinesGo, hc] using ih _ _ _ hcount
      · rcases cnFlush_run4free h with ⟨h1, h2⟩
        cases cr
        · by_cases hr : c = '\r'
          · simpa [collapseNewlinesGo, hc, hr] using ih buf n true h
          · simp only [collapseNewlinesGo, if_neg hc, if_neg hr, Bool.false_eq_true,
              if_false]
            refine run4free_append h1 ⟨ih [] 0 false rfl, fun hcc => absurd hcc hc⟩ ?_
            have : leadRun '\n' (c :: collapseNewlinesGo [] 0 false rest) = 0 := by
              simp [leadRun, hc]
            omega
        · simp only [collapseNewlinesGo, if_neg hc, if_pos rfl]
          by_cases hr : c = '\r'
          · simp only [if_pos hr]
            refine run4free_append h1 ⟨ih [] 0 true rfl, by simp⟩ ?_
            have : leadRun '\n' ('\r' :: collapseNewlinesGo [] 0 true rest) = 0 := by
              simp [leadRun]
            omega
          · simp only [if_neg hr]
            refine run4free_append h1
              ⟨⟨ih [] 0 false rfl, fun hcc => absurd hcc hc⟩, by simp⟩ ?_
            have : leadRun '\n' ('\r' :: c :: collapseNewlinesGo [] 0 false rest) = 0 := by
              simp [leadRun]
            omega

theorem collapseNewlines_run4free (l : Text) :
    run4free '\n' (collapseNewlines l) :=
  collapseNewlinesGo_run4free l [] 0 false rfl

theorem nsGo_run4free :
    ∀ (l pend : Text), run4free '\n' (pend.reverse ++ l) →
      run4free '\n' (noSpaceBeforePunctGo pend l) := by
  intro l
  induction l with
  | nil =>
      intro pend h
      simpa [noSpaceBeforePunctGo] using (run4free_append_left h).1
  | cons c rest ih =>
      intro pend h
      have hrest : run4free '\n' rest := ((run4free_append_left h).2).1
      simp only [noSpaceBeforePunctGo]
      split_ifs with h1 h2
      · exact ih (c :: pend) (by simpa using h)
      · have hcn : c ≠ '\n' := fun hcc => h1 (by rw [hcc]; decide)
        exact ⟨ih [] (by simpa using hrest), fun hcc => absurd hcc hcn⟩
      · have hcn : c ≠ '\n' := fun hcc => h1 (by rw [hcc]; decide)
        have hpre : run4free '\n' (pend.reverse ++ [c]) :=
          run4free_infix ⟨[], rest, by simp⟩ h
        have hrec : run4free '\n' (noSpaceBeforePunctGo [] rest) :=
          ih [] (by simpa using hrest)
        have htr : trailRun '\n' (pend.reverse ++ [c]) = 0 := by
          simp [trailRun, leadRun, hcn]
        have hout : run4free '\n'
            ((pend.reverse ++ [c]) ++ noSpaceBeforePunctGo [] rest) := by
          refine run4free_append hpre hrec ?_
          have := run4free_leadRun_le hrec
          omega
        simpa [List.append_assoc] using hout

theorem sas_run4free_aux :
    ∀ (n : Nat) (l : Text), l.length ≤ n → run4free '\n' l →
      run4free '\n' (spaceAfterSentence l) ∧
      leadRun '\n' (spaceAfterSentence l) ≤ leadRun '\n' l := by
  intro n
  induction n with
  | zero =>
      intro l hl h
      have : l = [] := List.length_eq_zero.mp (Nat.le_zero.mp hl)
      subst this
      exact ⟨trivial, le_refl _⟩
  | succ n ih =>
      intro l hl h
      match l with
      | [] => exact ⟨trivial, le_refl _⟩
      | [a] => exact ⟨h, le_refl _⟩
      | a :: b :: rest =>
          have hrest : run4free '\n' rest := h.1.1
          have hbrest : run4free '\n' (b :: rest) := h.1
          by_cases hm : isSentEndC a = true ∧ isUpperC b = true
          · have han : a ≠ '\n' := by
              intro hcc
              rw [hcc] at hm
              exact absurd hm.1 (by decide)
            have hbn : b ≠ '\n' := by
              intro hcc
              rw [hcc] at hm
              exact absurd hm.2 (by decide)
            rcases ih rest (by simp at hl ⊢; omega) hrest with ⟨ih1, ih2⟩
            simp only [spaceAfterSentence, if_pos hm]
            constructor
            · exact ⟨⟨⟨ih1, fun hcc => absurd hcc hbn⟩,
                fun hcc => absurd hcc (by decide)⟩, fun hcc => absurd hcc han⟩
            · simp [leadRun, han]
          · rcases ih (b :: rest) (by simp at hl ⊢; omega) hbrest with ⟨ih1, ih2⟩
            simp only [spaceAfterSentence, if_neg hm]
            constructor
            · refine ⟨ih1, fun hcc => ?_⟩
              have hb2 : leadRun '\n' (b :: rest) ≤ 2 := h.2 hcc
              omega
            · by_cases hacc : a = '\n'
              · rw [hacc]
                have hL : leadRun '\n' ('\n' :: spaceAfterSentence (b :: rest)) =
                    leadRun '\n' (spaceAfterSentence (b :: rest)) + 1 := rfl
                have hR : leadRun '\n' ('\n' :: b :: rest) =
                    leadRun '\n' (b :: rest) + 1 := rfl
                omega
              · simp [leadRun, hacc]

theorem sas_run4free {l : Text} (h : run4free '\n' l) :
    run4free '\n' (spaceAfterSentence l) :=
  (sas_run4free_aux l.length l (le_refl _) h).1

theorem cpFlush_all_dots (k : Nat) : ∀ x ∈ cpFlush k, x = '.' := by
  intro x hx
  unfold cpFlush at hx
  split at hx
  · simpa using hx
  · exact List.eq_of_mem_replicate hx

theorem cpFlush_count (k : Nat) : (cpFlush k).count '.' ≤ 3 := by
  unfold cpFlush
  split
  · simp
  · simp [List.count_replicate]
    omega

theorem cpFlush_length (k : Nat) : (cpFlush k).length ≤ 3 := by
  unfold cpFlush
  split
  · simp
  · simp
    omega

theorem cpGo_run4free_dot :
    ∀ (l : Text) (k : Nat),
      run4free '.' (collapsePeriodsGo k l) ∧
      leadRun '.' (collapsePeriodsGo k l) ≤ 3 := by
  intro l
  induction l with
  | nil =>
      intro k
      constructor
      · exact run4free_of_count (cpFlush_count k)
      · calc leadRun '.' (cpFlush k) ≤ (cpFlush k).count '.' := leadRun_le_count _ _
          _ ≤ 3 := cpFlush_count k
  | cons c rest ih =>
      intro k
      by_cases hc : c = '.'
      · simpa [collapsePeriodsGo, hc] using ih (k + 1)
      · rcases ih 0 with ⟨ih1, ih2⟩
        simp only [collapsePeriodsGo, if_neg hc]
        have htr : trailRun '.' (cpFlush k) ≤ 3 := by
          calc trailRun '.' (cpFlush k) ≤ (cpFlush k).reverse.count '.' :=
                leadRun_le_count _ _
            _ ≤ 3 := by rw [List.count_reverse]; exact cpFlush_count k
        have hrec : run4free '.' (c :: collapsePeriodsGo 0 rest) :=
          ⟨ih1, fun hcc => absurd hcc hc⟩
        constructor
        · refine run4free_append (run4free_of_count (cpFlush_count k)) hrec ?_
          have hz : leadRun '.' (c :: collapsePeriodsGo 0 rest) = 0 := by
            simp [leadRun, hc]
          omega
        · by_cases hall : ∀ x ∈ cpFlush k, x = '.'
          · rw [leadRun_append_all _ hall]
            have hz : leadRun '.' (c :: collapsePeriodsGo 0 rest) = 0 := by
              simp [leadRun, hc]
            have := cpFlush_length k
            omega
          · exact absurd (cpFlush_all_dots k) hall

theorem cpGo_run4free_nl :
    ∀ (l : Text) (k : Nat), run4free '\n' l →
      run4free '\n' (collapsePeriodsGo k l) ∧
      leadRun '\n' (collapsePeriodsGo k l) ≤
        (if k = 0 then leadRun '\n' l else 0) := by
  intro l
  induction l with
  | nil =>
      intro k _
      have hno : ∀ x ∈ cpFlush k, x ≠ '\n' := by
        intro x hx
        rw [cpFlush_all_dots k x hx]
        decide
      refine ⟨run4free_of_not_mem hno, ?_⟩
      show leadRun '\n' (cpFlush k) ≤ _
      rw [leadRun_eq_zero hno]
      split <;> omega
  | cons c rest ih =>
      intro k h
      by_cases hc : c = '.'
      · rcases ih (k + 1) h.1 with ⟨ih1, ih2⟩
        simp only [collapsePeriodsGo, if_pos hc]
        refine ⟨ih1, ?_⟩
        simp at ih2
        split <;> omega
      · rcases ih 0 h.1 with ⟨ih1, ih2⟩
        simp only [collapsePeriodsGo, if_neg hc]
        have hno : ∀ x ∈ cpFlush k, x ≠ '\n' := by
          intro x hx
          rw [cpFlush_all_dots k x hx]
          decide
        have ihlead : leadRun '\n' (collapsePeriodsGo 0 rest) ≤ leadRun '\n' rest := by
          simpa using ih2
        have hrec : run4free '\n' (c :: collapsePeriodsGo 0 rest) := by
          refine ⟨ih1, fun hcc => ?_⟩
          have h2 := h.2 hcc
          omega
        constructor
        · refine run4free_append (run4free_of_not_mem hno) hrec ?_
          have htr : trailRun '\n' (cpFlush k) = 0 := trailRun_eq_zero hno
          have hlr := run4free_leadRun_le hrec
          omega
        · by_cases hall : ∀ x ∈ cpFlush k, x = '\n'
          · have hemp : cpFlush k = [] := by
              cases hck : cpFlush k with
              | nil => rfl
              | cons d t =>
                  have hd1 : d = '\n' := hall d (by rw [hck]; simp)
                  have hd2 : d ≠ '\n' := hno d (by rw [hck]; simp)
                  exact absurd hd1 hd2
            have hk0 : k = 0 := by
              by_contra hk
              have : cpFlush k ≠ [] := by
                unfold cpFlush
                split
                · simp
                · simp [List.replicate_eq_nil_iff]
                  omega
              exact this hemp
            subst hk0
            rw [hemp]
            simp only [List.nil_append]
            rw [if_pos trivial]
            by_cases hcc : c = '\n'
            · have hL : leadRun '\n' (c :: collapsePeriodsGo 0 rest) =
                  leadRun '\n' (collapsePeriodsGo 0 rest) + 1 := by
                simp [leadRun, hcc]
              have hR : leadRun '\n' (c :: rest) = leadRun '\n' rest + 1 := by
                simp [leadRun, hcc]
              omega
            · have hL : leadRun '\n' (c :: collapsePeriodsGo 0 rest) = 0 := by
                simp [leadRun, hcc]
              omega
          · rw [leadRun_append_not_all _ hall, leadRun_eq_zero hno]
            split <;> omega

theorem trailRun_append_one (c d : Char) (xs : Text) :
    trailRun c (xs ++ [d]) = if d = c then trailRun c xs + 1 else 0 := by
  by_cases hd : d = c
  · simp [trailRun, leadRun, hd]
  · simp [trailRun, leadRun, hd]

theorem swlGo_run4free (c₀ : Char) (hw : wordChar c₀ = false) (hsp : c₀ ≠ ' ') :
    ∀ (l : Text) (st : SwlState), SwlInv st →
      run4free c₀ (swlStateText st ++ l) →
      run4free c₀ (swlGo st l) ∧
      leadRun c₀ (swlGo st l) ≤ leadRun c₀ (swlStateText st ++ l) := by
  intro l
  induction l with
  | nil =>
      intro st hinv h
      cases st with
      | norm b => exact ⟨trivial, by simp [swlGo, leadRun]⟩
      | word w => exact ⟨by simpa [swlStateText] using h, by simp [swlGo, swlStateText]⟩
      | wsp w m => exact ⟨by simpa [swlStateText] using h, by simp [swlGo, swlStateText]⟩
  | cons c rest ih =>
      intro st hinv h
      cases st with
      | norm b =>
          simp only [swlStateText, List.nil_append] at h ⊢
          by_cases hbc : b ∧ wordChar c = true
          · have heq : swlStateText (.word [c]) ++ rest = c :: rest := by
              simp [swlStateText]
            have hres := ih (.word [c]) ⟨by simp, by simpa using hbc.2⟩ (by rw [heq]; exact h)
            rw [heq] at hres
            simp only [swlGo, if_pos hbc]
            exact hres
          · have hres := ih (.norm (c = '\n')) trivial (by simpa [swlStateText] using h.1)
            simp only [swlStateText, List.nil_append] at hres
            simp only [swlGo, if_neg hbc]
            constructor
            · refine ⟨hres.1, fun hcc => ?_⟩
              have h2 := h.2 hcc
              omega
            · by_cases hcc : c = c₀
              · have hL : leadRun c₀ (c :: swlGo (.norm (c = '\n')) rest) =
                    leadRun c₀ (swlGo (.norm (c = '\n')) rest) + 1 := by
                  simp [leadRun, hcc]
                have hR : leadRun c₀ (c :: rest) = leadRun c₀ rest + 1 := by
                  simp [leadRun, hcc]
                omega
              · simp [leadRun, hcc]
      | word w =>
          have hwne := hinv.1
          have hwall := hinv.2
          simp only [swlStateText] at h ⊢
          have hnotall : ¬∀ x ∈ w.reverse, x = c₀ := by
            intro hall
            cases hwrev : w.reverse with
            | nil => exact hwne (by simpa using congrArg List.reverse hwrev)
            | cons d t =>
                have hd : d = c₀ := hall d (by rw [hwrev]; simp)
                have hdw : wordChar d = true :=
                  hwall d (List.mem_reverse.mp (by rw [hwrev]; simp))
                rw [hd, hw] at hdw
                cases hdw
          have hsplit := run4free_append_left h
          have hcrest : run4free c₀ (c :: rest) := hsplit.2
          have hrest : run4free c₀ rest := hcrest.1
          by_cases hwc : wordChar c = true
          · have heq : swlStateText (.word (c :: w)) ++ rest =
                w.reverse ++ c :: rest := by
              simp [swlStateText]
            have hinv2 : SwlInv (.word (c :: w)) := by
              refine ⟨by simp, ?_⟩
              intro x hx
              rcases List.mem_cons.mp hx with hx | hx
              · exact hx ▸ hwc
              · exact hwall x hx
            have hres := ih (.word (c :: w)) hinv2 (by rw [heq]; exact h)
            rw [heq] at hres
            simp only [swlGo, if_pos hwc]
            exact hres
          · by_cases hws : pyIsSpace c = true
            · have heq : swlStateText (.wsp w [c]) ++ rest =
                  w.reverse ++ c :: rest := by
                simp [swlStateText]
              have hres := ih (.wsp w [c]) ⟨⟨hwne, hwall⟩, by simpa using hws⟩
                (by rw [heq]; exact h)
              rw [heq] at hres
              simp only [swlGo, if_neg hwc, if_pos hws]
              exact hres
            · have hres := ih (.norm false) trivial (by simpa [swlStateText] using hrest)
              simp only [swlStateText, List.nil_append] at hres
              have hA : run4free c₀ (w.reverse ++ [c]) :=
                run4free_infix ⟨[], rest, by simp⟩ h
              have hbound : trailRun c₀ (w.reverse ++ [c]) +
                  leadRun c₀ (swlGo (.norm false) rest) ≤ 3 := by
                rw [trailRun_append_one]
                by_cases hcc : c = c₀
                · have htz : trailRun c₀ w.reverse = 0 := by
                    refine trailRun_eq_zero ?_
                    intro x hx hxc
                    have := hwall x (List.mem_reverse.mp hx)
                    rw [hxc, hw] at this
                    cases this
                  have h2 := hcrest.2 hcc
                  rw [if_pos hcc, htz]
                  omega
                · rw [if_neg hcc]
                  have := run4free_leadRun_le hres.1
                  omega
              simp only [swlGo, if_neg hwc, if_neg hws]
              constructor
              · have hout := run4free_append hA hres.1 hbound
                simpa [List.append_assoc] using hout
              · rw [leadRun_append_not_all (c :: swlGo (.norm false) rest) hnotall,
                  leadRun_append_not_all (c :: rest) hnotall]
      | wsp w m =>
          have hwne := hinv.1.1
          have hwall := hinv.1.2
          have hmall := hinv.2
          simp only [swlStateText] at h ⊢
          have hnotall : ¬∀ x ∈ w.reverse, x = c₀ := by
            intro hall
            cases hwrev : w.reverse with
            | nil => exact hwne (by simpa using congrArg List.reverse hwrev)
            | cons d t =>
                have hd : d = c₀ := hall d (by rw [hwrev]; simp)
                have hdw : wordChar d = true :=
                  hwall d (List.mem_reverse.mp (by rw [hwrev]; simp))
                rw [hd, hw] at hdw
                cases hdw
          have hnotallA : ¬∀ x ∈ w.reverse ++ m.reverse, x = c₀ := by
            intro hall
            exact hnotall (fun x hx => hall x (List.mem_append.mpr (Or.inl hx)))
          have hsplit := run4free_append_left h
          have hcrest : run4free c₀ (c :: rest) := hsplit.2
          have hrest : run4free c₀ rest := hcrest.1
          by_cases hws : pyIsSpace c = true
          · have heq : swlStateText (.wsp w (c :: m)) ++ rest =
                (w.reverse ++ m.reverse) ++ c :: rest := by
              simp [swlStateText, List.append_assoc]
            have hinv2 : SwlInv (.wsp w (c :: m)) := by
              refine ⟨⟨hwne, hwall⟩, ?_⟩
              intro x hx
              rcases List.mem_cons.mp hx with hx | hx
              · exact hx ▸ hws
              · exact hmall x hx
            have hres := ih (.wsp w (c :: m)) hinv2 (by rw [heq]; exact h)
            rw [heq] at hres
            simp only [swlGo, if_pos hws]
            exact hres
          · by_cases hmatch : wordChar c = true ∧ m.head? = some '\n'
            · have heq : swlStateText (.word [c]) ++ rest = c :: rest := by
                simp [swlStateText]
              have hres := ih (.word [c]) ⟨by simp, by simpa using hmatch.1⟩
                (by rw [heq]; exact hcrest)
              rw [heq] at hres
              have hA : run4free c₀ (w.reverse ++ [' ']) := by
                refine run4free_of_not_mem ?_
                intro x hx
                rcases List.mem_append.mp hx with hx | hx
                · intro hxc
                  have := hwall x (List.mem_reverse.mp hx)
                  rw [hxc, hw] at this
                  cases this
                · intro hxc
                  have hx' : x = ' ' := by simpa using hx
                  exact hsp (by rw [← hxc, hx'])
              have hbound : trailRun c₀ (w.reverse ++ [' ']) +
                  leadRun c₀ (swlGo (.word [c]) rest) ≤ 3 := by
                rw [trailRun_append_one, if_neg (fun hx => hsp hx.symm)]
                have := run4free_leadRun_le hres.1
                omega
              simp only [swlGo, if_neg hws, if_pos hmatch]
              constructor
              · have hout := run4free_append hA hres.1 hbound
                simpa [List.append_assoc] using hout
              · rw [leadRun_append_not_all (' ' :: swlGo (.word [c]) rest) hnotall,
                  leadRun_append_not_all (c :: rest) hnotallA]
                exact leadRun_le_append c₀ w.reverse m.reverse
            · have hres := ih (.norm false) trivial (by simpa [swlStateText] using hrest)
              simp only [swlStateText, List.nil_append] at hres
              have hA : run4free c₀ ((w.reverse ++ m.reverse) ++ [c]) :=
                run4free_infix ⟨[], rest, by simp [List.append_assoc]⟩ h
              have hbound : trailRun c₀ ((w.reverse ++ m.reverse) ++ [c]) +
                  leadRun c₀ (swlGo (.norm false) rest) ≤ 3 := by
                rw [trailRun_append_one]
                by_cases hcc : c = c₀
                · have hc0ws : pyIsSpace c₀ = false := by
                    rw [← hcc]
                    exact Bool.eq_false_iff.mpr hws
                  have htz : trailRun c₀ (w.reverse ++ m.reverse) = 0 := by
                    refine trailRun_eq_zero ?_
                    intro x hx hxc
                    rcases List.mem_append.mp hx with hx | hx
                    · have := hwall x (List.mem_reverse.mp hx)
                      rw [hxc, hw] at this
                      cases this
                    · have := hmall x (List.mem_reverse.mp hx)
                      rw [hxc, hc0ws] at this
                      cases this
                  have h2 := hcrest.2 hcc
                  rw [if_pos hcc, htz]
                  omega
                · rw [if_neg hcc]
                  have := run4free_leadRun_le hres.1
                  omega
              simp only [swlGo, if_neg hws, if_neg hmatch]
              constructor
              · have hout := run4free_append hA hres.1 hbound
                simpa [List.append_assoc] using hout
              · have hL : leadRun c₀
                    ((w.reverse ++ m.reverse) ++ c :: swlGo (.norm false) rest) =
                    leadRun c₀ (w.reverse ++ m.reverse) :=
                  leadRun_append_not_all _ hnotallA
                have hR : leadRun c₀ ((w.reverse ++ m.reverse) ++ c :: rest) =
                    leadRun c₀ (w.reverse ++ m.reverse) :=
                  leadRun_append_not_all _ hnotallA
                rw [hL, hR]
theorem singleWordLines_run4free (c₀ : Char) (hw : wordChar c₀ = false)
    (hsp : c₀ ≠ ' ') {l : Text} (h : run4free c₀ l) :
    run4free c₀ (singleWordLines l) :=
  (swlGo_run4free c₀ hw hsp l (.norm true) trivial (by simpa [swlStateText] using h)).1

theorem pyStrip_run4free {c : Char} {l : Text} (h : run4free c l) :
    run4free c (pyStrip l) := by
  unfold pyStrip
  have h1 : run4free c (l.dropWhile pyIsSpace) :=
    run4free_infix (List.dropWhile_suffix pyIsSpace).isInfix h
  have h2 : run4free c (l.dropWhile pyIsSpace).reverse := run4free_reverse h1
  have h3 : run4free c ((l.dropWhile pyIsSpace).reverse.dropWhile pyIsSpace) :=
    run4free_infix (List.dropWhile_suffix pyIsSpace).isInfix h2
  exact run4free_reverse h3

/-! ## Elementary facts about `pyStrip`, `pySplitlines` and the scan -/

theorem dropWhile_head_false {p : Char → Bool} :
    ∀ {l : Text} {x : Char}, (l.dropWhile p).head? = some x → p x = false := by
  intro l
  induction l with
  | nil => intro x hx; cases hx
  | cons c rest ih =>
      intro x hx
      by_cases hc : p c = true
      · rw [List.dropWhile_cons_of_pos hc] at hx
        exact ih hx
      · rw [List.dropWhile_cons_of_neg hc] at hx
        cases hx
        exact Bool.eq_false_iff.mpr hc

theorem dropWhile_eq_self_of_head {p : Char → Bool} {l : Text}
    (h : ∀ x ∈ l.head?, p x = false) : l.dropWhile p = l := by
  cases l with
  | nil => rfl
  | cons c rest =>
      have : p c = false := h c rfl
      rw [List.dropWhile_cons_of_neg (by rw [this]; exact Bool.false_ne_true)]

theorem dropWhile_idem (p : Char → Bool) (l : Text) :
    (l.dropWhile p).dropWhile p = l.dropWhile p := by
  refine dropWhile_eq_self_of_head ?_
  intro x hx
  exact dropWhile_head_false hx

theorem prefix_head {l₂ : Text} {d : Char} {t : Text} (h : (d :: t) <+: l₂) :
    l₂.head? = some d := by
  rcases h with ⟨r, rfl⟩
  rfl

theorem pyStrip_idem (l : Text) : pyStrip (pyStrip l) = pyStrip l := by
  show pyStrip (((l.dropWhile pyIsSpace).reverse.dropWhile pyIsSpace).reverse) = _
  have hApre : ∀ x ∈ (l.dropWhile pyIsSpace).head?, pyIsSpace x = false :=
    fun x hx => dropWhile_head_false hx
  have hpre : ((l.dropWhile pyIsSpace).reverse.dropWhile pyIsSpace).reverse <+:
      l.dropWhile pyIsSpace := by
    have hs : (l.dropWhile pyIsSpace).reverse.dropWhile pyIsSpace <:+
        (l.dropWhile pyIsSpace).reverse := List.dropWhile_suffix pyIsSpace
    simpa using hs.reverse
  have hstep1 :
      (((l.dropWhile pyIsSpace).reverse.dropWhile pyIsSpace).reverse).dropWhile
        pyIsSpace =
      ((l.dropWhile pyIsSpace).reverse.dropWhile pyIsSpace).reverse := by
    refine dropWhile_eq_self_of_head ?_
    intro x hx
    rcases hc : ((l.dropWhile pyIsSpace).reverse.dropWhile pyIsSpace).reverse
      with _ | ⟨d, t⟩
    · rw [hc] at hx; cases hx
    · rw [hc] at hx
      cases hx
      exact hApre x (prefix_head (hc ▸ hpre))
  unfold pyStrip
  rw [hstep1]
  rw [List.reverse_reverse]
  rw [dropWhile_idem]

theorem secondaryHit_idx {i : Nat} {r : Option (Text × Text)} {h : Hit}
    (he : secondaryHit i r = some h) : h.idx = i := by
  rcases r with _ | ⟨g1, g2⟩
  · cases he
  · simp only [secondaryHit] at he
    split at he
    · split at he
      · cases he
        rfl
      · cases he
    · cases he

theorem secondaryScan_idx {lc : Text} {i : Nat} {h : Hit}
    (he : secondaryScan lc i = some h) : h.idx = i := by
  unfold secondaryScan at he
  rcases h1 : secondaryHit i (pageP1 lc) with _ | h'
  · rw [h1] at he
    rcases h2 : secondaryHit i (pageP2 lc) with _ | h'
    · rw [h2] at he
      exact secondaryHit_idx he
    · rw [h2] at he
      cases he
      exact secondaryHit_idx h2
  · rw [h1] at he
    cases he
    exact secondaryHit_idx h1

theorem scanLine_idx {re : Regex} {bt : Text} {i : Nat} {l : Text} {h : Hit}
    (he : scanLine re bt i l = some h) : h.idx = i := by
  simp only [scanLine] at he
  split at he
  · cases he
  · split at he
    · cases he
    · split at he
      · cases he
      · split at he
        · cases he
          rfl
        · exact secondaryScan_idx he

theorem scanLine_of_title {re : Regex} {bt : Text} {i : Nat} {l : Text}
    (hbt : bt ≠ []) (ht : is_book_title_line (pyStrip l) bt = true) :
    scanLine re bt i l = none := by
  simp only [scanLine]
  by_cases hlc : pyStrip l = []
  · rw [if_pos hlc]
  · rw [if_neg hlc, if_pos ⟨hbt, ht⟩]

theorem mkHitsGo_mem {re : Regex} {bt : Text} :
    ∀ (ls : List Text) (i0 : Nat) (h : Hit), h ∈ mkHitsGo re bt i0 ls →
      i0 ≤ h.idx ∧ ∃ l : Text, ls.get? (h.idx - i0) = some l ∧
        scanLine re bt h.idx l = some h := by
  intro ls
  induction ls with
  | nil => intro i0 h hm; cases hm
  | cons l rest ih =>
      intro i0 h hm
      have hstep : ∀ hm' : h ∈ mkHitsGo re bt (i0 + 1) rest,
          i0 ≤ h.idx ∧ ∃ l' : Text, (l :: rest).get? (h.idx - i0) = some l' ∧
            scanLine re bt h.idx l' = some h := by
        intro hm'
        rcases ih (i0 + 1) h hm' with ⟨hle, l', hget, hsc⟩
        refine ⟨by omega, l', ?_, hsc⟩
        have harith : h.idx - i0 = (h.idx - (i0 + 1)) + 1 := by omega
        rw [harith]
        simpa using hget
      rcases hs : scanLine re bt i0 l with _ | h0
      · rw [mkHitsGo, hs] at hm
        exact hstep hm
      · rw [mkHitsGo, hs] at hm
        rcases List.mem_cons.mp hm with hm | hm
        · subst hm
          have hidx : h.idx = i0 := scanLine_idx hs
          refine ⟨by omega, l, ?_, ?_⟩
          · have h0 : h.idx - i0 = 0 := by omega
            rw [h0]
            rfl
          · rw [hidx]
            exact hs
        · exact hstep hm

theorem buildChapters_get? (lines : List Text) (bt : Text) :
    ∀ (hits : List Hit) (pos i : Nat) (ch : Chapter),
      (buildChapters lines bt hits pos).get? i = some ch →
      ∃ h : Hit, hits.get? i = some h ∧
        ch.number = (if h.num ≠ 0 then h.num else ((pos + i + 1 : Nat) : Int)) ∧
        ch.title = h.title := by
  intro hits
  induction hits with
  | nil => intro pos i ch hch; cases hch
  | cons h1 t ih =>
      intro pos i ch hch
      cases t with
      | nil =>
          cases i with
          | zero =>
              simp only [buildChapters, List.get?] at hch
              cases hch
              exact ⟨h1, rfl, rfl, rfl⟩
          | succ j =>
              simp only [buildChapters, List.get?] at hch
              cases j <;> cases hch
      | cons h2 rest =>
          cases i with
          | zero =>
              simp only [buildChapters, List.get?] at hch
              cases hch
              exact ⟨h1, rfl, rfl, rfl⟩
          | succ j =>
              simp only [buildChapters, List.get?] at hch
              rcases ih (pos + 1) j ch hch with ⟨h', hget, hnum, htitle⟩
              refine ⟨h', by simpa using hget, ?_, htitle⟩
              have harith : pos + 1 + j + 1 = pos + (j + 1) + 1 := by omega
              rw [hnum, harith]

theorem scanLine_empty_title (re : Regex) (i : Nat) (l : Text) :
    scanLine re [] i l = scanLineNF re i l := by
  simp only [scanLine, scanLineNF]
  have : ¬(([] : Text) ≠ [] ∧ is_book_title_line (pyStrip l) []) :=
    fun hc => hc.1 rfl
  rw [if_neg this]

theorem mkHitsGo_empty_title (re : Regex) :
    ∀ (ls : List Text) (i : Nat), mkHitsGo re [] i ls = mkHitsGoNF re i ls := by
  intro ls
  induction ls with
  | nil => intro i; rfl
  | cons l rest ih =>
      intro i
      simp only [mkHitsGo, mkHitsGoNF, scanLine_empty_title, ih]

theorem keepBodyLine_empty_title (l : Text) :
    keepBodyLine [] l = keepBodyLineNF l := by
  simp [keepBodyLine, keepBodyLineNF]

theorem bodyLines_empty_title (lines : List Text) (s e : Nat) :
    bodyLines lines [] s e = bodyLinesNF lines s e := by
  simp only [bodyLines, bodyLinesNF]
  congr 1
  funext l
  exact keepBodyLine_empty_title l

theorem mkChapter_empty_title (lines : List Text) (h : Hit) (pos e : Nat) :
    mkChapter lines [] h pos e = mkChapterNF lines h pos e := by
  simp only [mkChapter, mkChapterNF, bodyLines_empty_title]

theorem buildChapters_empty_title (lines : List Text) :
    ∀ (hits : List Hit) (pos : Nat),
      buildChapters lines [] hits pos = buildChaptersNF lines hits pos := by
  intro hits
  induction hits with
  | nil => intro pos; rfl
  | cons h1 t ih =>
      intro pos
      cases t with
      | nil => simp only [buildChapters, buildChaptersNF, mkChapter_empty_title]
      | cons h2 rest =>
          simp only [buildChapters, buildChaptersNF, mkChapter_empty_title, ih]

set_option maxHeartbeats 1000000 in
theorem splitlinesGo_ws (t acc : Text) :
    (∀ c ∈ t, pyIsSpace c = true) → (∀ c ∈ acc, pyIsSpace c = true) →
    ∀ l ∈ splitlinesGo t acc, ∀ c ∈ l, pyIsSpace c = true := by
  induction t, acc using splitlinesGo.induct with
  | case1 =>
      intro _ _ l hl
      simp [splitlinesGo] at hl
  | case2 acc hne =>
      intro _ hacc l hl
      simp only [splitlinesGo, if_neg hne] at hl
      rcases List.mem_singleton.mp hl with rfl
      intro c hc
      exact hacc c (List.mem_reverse.mp hc)
  | case3 rest acc ih =>
      intro ht hacc l hl
      rw [splitlinesGo] at hl
      rcases List.mem_cons.mp hl with rfl | hl
      · intro c hc
        exact hacc c (List.mem_reverse.mp hc)
      · exact ih (fun c hc => ht c (by simp [hc])) (by simp) l hl
  | case4 c rest acc hnp hbr ih =>
      intro ht hacc l hl
      rw [splitlinesGo.eq_3 _ _ _ hnp, if_pos hbr] at hl
      rcases List.mem_cons.mp hl with rfl | hl
      · intro d hd
        exact hacc d (List.mem_reverse.mp hd)
      · exact ih (fun d hd => ht d (by simp [hd])) (by simp) l hl
  | case5 c rest acc hnp hbr ih =>
      intro ht hacc l hl
      rw [splitlinesGo.eq_3 _ _ _ hnp, if_neg hbr] at hl
      refine ih (fun d hd => ht d (by simp [hd])) ?_ l hl
      intro d hd
      rcases List.mem_cons.mp hd with rfl | hd
      · exact ht d (by simp)
      · exact hacc d hd

theorem pyStrip_eq_nil_of_all_ws {l : Text} (h : ∀ c ∈ l, pyIsSpace c = true) :
    pyStrip l = [] := by
  unfold pyStrip
  have h1 : l.dropWhile pyIsSpace = [] := List.dropWhile_eq_nil_iff.mpr h
  rw [h1]
  rfl

theorem all_ws_of_pyStrip_eq_nil {l : Text} (h : pyStrip l = []) :
    ∀ c ∈ l, pyIsSpace c = true := by
  unfold pyStrip at h
  have h1 : (l.dropWhile pyIsSpace).reverse.dropWhile pyIsSpace = [] := by
    have := congrArg List.reverse h
    simpa using this
  have h2 : ∀ c ∈ (l.dropWhile pyIsSpace).reverse, pyIsSpace c = true :=
    List.dropWhile_eq_nil_iff.mp h1
  have h3 : ∀ c ∈ l.dropWhile pyIsSpace, pyIsSpace c = true :=
    fun c hc => h2 c (List.mem_reverse.mpr hc)
  intro c hc
  rcases List.mem_append.mp (by rw [List.takeWhile_append_dropWhile]; exact hc :
      c ∈ l.takeWhile pyIsSpace ++ l.dropWhile pyIsSpace) with hc | hc
  · exact List.mem_takeWhile_imp hc
  · exact h3 c hc

theorem split_into_chapters_of_ws {text : Text} (re : Regex) (bt : Text)
    (h : pyStrip text = []) : split_into_chapters text re bt = [] := by
  have hws := all_ws_of_pyStrip_eq_nil h
  have hlines : ∀ l ∈ pySplitlines text, pyStrip l = [] := by
    intro l hl
    exact pyStrip_eq_nil_of_all_ws
      (splitlinesGo_ws text [] hws (by simp) l hl)
  have hhits : ∀ (ls : List Text), (∀ l ∈ ls, pyStrip l = []) →
      ∀ i, mkHitsGo re bt i ls = [] := by
    intro ls
    induction ls with
    | nil => intro _ _; rfl
    | cons l rest ih =>
        intro hws2 i
        have hsl : scanLine re bt i l = none := by
          simp only [scanLine]
          rw [if_pos (hws2 l (by simp))]
        rw [mkHitsGo, hsl]
        exact ih (fun l' hl' => hws2 l' (by simp [hl'])) (i + 1)
  unfold split_into_chapters mkHits
  rw [hhits _ hlines 0]
  rfl

theorem isSome_false_eq_none {α : Type} {o : Option α} (h : o.isSome = false) :
    o = none := by
  cases o with
  | none => rfl
  | some a => simp at h

/-- Under the `is_page_number_line` guard of the scan every page pattern has
already failed, so the secondary heuristic records no hit — in particular it
never reaches its `parse_chapter_number` call, so it performs no fallible
operation. -/
theorem secondaryScan_none_of_not_page {lc : Text} (i : Nat)
    (hp : is_page_number_line lc = false) (hs : pyStrip lc = lc) :
    secondaryScan lc i = none := by
  unfold is_page_number_line at hp
  rw [hs] at hp
  simp only [Bool.or_eq_false_iff] at hp
  obtain ⟨⟨⟨h0, h1⟩, h2⟩, h3⟩ := hp
  unfold secondaryScan
  rw [isSome_false_eq_none h1, isSome_false_eq_none h2, isSome_false_eq_none h3]
  rfl

theorem romanStep_zero {acc : Int × Nat} {c : Char}
    (h : romanVal (pyUpperChar c) = 0) : romanStep acc c = acc := by
  obtain ⟨a, b⟩ := acc
  unfold romanStep
  rw [h]
  simp only []
  split
  · simp
  · rename_i hlt
    have h0 : b = 0 := by omega
    simp [h0]

theorem roman_to_int_zero {s : Text} (h : ∀ c ∈ s, romanVal (pyUpperChar c) = 0) :
    roman_to_int s = 0 := by
  unfold roman_to_int
  have hfold : ∀ (t : Text) (acc : Int × Nat),
      (∀ c ∈ t, romanVal (pyUpperChar c) = 0) → t.foldl romanStep acc = acc := by
    intro t
    induction t with
    | nil => intro acc _; rfl
    | cons c rest ih =>
        intro acc ht
        rw [List.foldl_cons, romanStep_zero (ht c (by simp))]
        exact ih acc (fun d hd => ht d (by simp [hd]))
  rw [hfold s.reverse (0, 0) (fun c hc => h c (List.mem_reverse.mp hc))]

theorem tocOfGo_length : ∀ (chs : List Chapter) (i0 : Nat),
    (tocOfGo i0 chs).length = chs.length := by
  intro chs
  induction chs with
  | nil => intro i0; rfl
  | cons ch rest ih => intro i0; simp [tocOfGo, ih]

theorem tocOfGo_get? : ∀ (chs : List Chapter) (i0 i : Nat) (e : TocEntry),
    (tocOfGo i0 chs).get? i = some e →
    ∃ ch, chs.get? i = some ch ∧ e.title = ch.title ∧ e.level = 1 := by
  intro chs
  induction chs with
  | nil => intro i0 i e he; cases he
  | cons ch rest ih =>
      intro i0 i e he
      cases i with
      | zero =>
          cases he
          exact ⟨ch, rfl, rfl, rfl⟩
      | succ j =>
          rcases ih (i0 + 1) j e he with ⟨ch', hg, ht, hl⟩
          exact ⟨ch', by simpa using hg, ht, hl⟩

/-! ## The claims -/

/-- Claim C1 (code bug): the spec's secondary heading heuristic says a line
`<text> - <1-3 digit page>` whose text part contains a `chapter N` token is
recorded as a heading hit.  The code never records it: `is_page_number_line`
(whose pattern 1 matches every such line) makes the scan `continue` before the
secondary branch runs, so the branch is unreachable.  At the failing input
`"Intro to chapter 2 - 15"`, the embedded secondary branch `secondaryScan`
would indeed produce the hit the spec describes (number 2, title
`"Intro to chapter 2"`), but the line is classified as a page-number line and
`split_into_chapters` emits no chapter at all. -/
theorem claim_C1 :
    is_page_number_line (str "Intro to chapter 2 - 15") = true ∧
    secondaryScan (pyStrip (str "Intro to chapter 2 - 15")) 0 =
      some ⟨0, 2, str "Intro to chapter 2"⟩ ∧
    split_into_chapters (str "Intro to chapter 2 - 15\nSome body text")
      CHAPTER_RE_DEFAULT [] = [] := by
  exact ⟨by decide, by decide, by decide⟩

/-- Claim C3, counterexample: `clean_text` is not idempotent.  On
`"of- the"` the HYPHENS_WRAP rule "inword hyphen + spaces" first produces
`"ofthe"`, and a second pass lets the MERGED rule split it to `"of the"`. -/
theorem claim_C3_counterexample :
    clean_text (str "of- the") = str "ofthe" ∧
    clean_text (clean_text (str "of- the")) = str "of the" ∧
    clean_text (clean_text (str "of- the")) ≠ clean_text (str "of- the") := by
  exact ⟨by decide, by decide, by decide⟩

set_option maxRecDepth 4000 in
/-- Claim C3, amended: idempotence holds for representative inputs (as the
spec itself words it) — here an input exercising the misread, contraction,
dash, whitespace-collapse and period-collapse rules — but not for every
input. -/
theorem claim_C3 :
    clean_text (clean_text (str "He said tbe word.    And—dont stop....")) =
      clean_text (str "He said tbe word.    And—dont stop....") := by decide

/-- Claim C4: for every input, the output of `clean_text` contains no run of
four or more periods and no run of four or more newlines.  The WHITESPACE
rules "collapse 4+ blank lines" and "collapse 4+ periods" establish the two
properties, and every later rule ("no space before punct", "space after
sentence", "single word lines") and the final strip preserve them. -/
theorem claim_C4 (t : Text) :
    run4free '.' (clean_text t) ∧ run4free '\n' (clean_text t) := by
  have hx : clean_text t = pyStrip (singleWordLines (collapsePeriods
      (spaceAfterSentence (noSpaceBeforePunct (collapseNewlines (collapseSpaces
        (trimTrailing (hyphensStage (mergedStage (confusionsStage
          (contractionsStage (misreadsStage (normalizeStage t))))))))))))) := rfl
  rw [hx]
  generalize collapseSpaces (trimTrailing (hyphensStage (mergedStage
    (confusionsStage (contractionsStage (misreadsStage (normalizeStage t))))))) = z
  have h1 : run4free '\n' (collapseNewlines z) := collapseNewlines_run4free z
  have h2 : run4free '\n' (noSpaceBeforePunct (collapseNewlines z)) :=
    nsGo_run4free _ [] (by simpa using h1)
  have h3 : run4free '\n' (spaceAfterSentence (noSpaceBeforePunct
      (collapseNewlines z))) := sas_run4free h2
  have h4 : run4free '\n' (collapsePeriods (spaceAfterSentence
      (noSpaceBeforePunct (collapseNewlines z)))) :=
    (cpGo_run4free_nl _ 0 h3).1
  have h4d : run4free '.' (collapsePeriods (spaceAfterSentence
      (noSpaceBeforePunct (collapseNewlines z)))) :=
    (cpGo_run4free_dot _ 0).1
  have h5 : run4free '\n' (singleWordLines (collapsePeriods (spaceAfterSentence
      (noSpaceBeforePunct (collapseNewlines z))))) :=
    singleWordLines_run4free '\n' (by decide) (by decide) h4
  have h5d : run4free '.' (singleWordLines (collapsePeriods (spaceAfterSentence
      (noSpaceBeforePunct (collapseNewlines z))))) :=
    singleWordLines_run4free '.' (by decide) (by decide) h4d
  exact ⟨pyStrip_run4free h5d, pyStrip_run4free h5⟩

/-- Claim C5: `parse_chapter_number` parses a pure digit string as a decimal
integer and otherwise applies `roman_to_int`, whose right-to-left scan
(`romanStep`) adds each symbol's value unless it is smaller than the
previously added value, in which case it subtracts; the required concrete
values hold, and a token with no recognized Roman symbol yields 0. -/
theorem claim_C5 :
    (∀ s : Text, pyIsDigitStr (pyStrip s) = true →
       parse_chapter_number s = (decimalVal (pyStrip s) : Int)) ∧
    (∀ s : Text, pyIsDigitStr (pyStrip s) = false →
       parse_chapter_number s = roman_to_int (pyStrip s)) ∧
    parse_chapter_number (str "IV") = 4 ∧
    parse_chapter_number (str "ix") = 9 ∧
    parse_chapter_number (str "xl") = 40 ∧
    parse_chapter_number (str "") = 0 ∧
    (∀ s : Text, (∀ c ∈ s, romanVal (pyUpperChar c) = 0) → roman_to_int s = 0) := by
  refine ⟨?_, ?_, by decide, by decide, by decide, by decide,
    fun s h => roman_to_int_zero h⟩
  · intro s h
    unfold parse_chapter_number
    rw [if_pos h]
  · intro s h
    unfold parse_chapter_number
    rw [if_neg (by rw [h]; exact Bool.false_ne_true)]

/-- Claim C5, witness: the quantified parts applied at concrete tokens. -/
theorem claim_C5_witness :
    parse_chapter_number (str "123") = (decimalVal (pyStrip (str "123")) : Int) ∧
    parse_chapter_number (str "iv") = roman_to_int (pyStrip (str "iv")) ∧
    roman_to_int (str "zq") = 0 :=
  ⟨claim_C5.1 (str "123") (by decide),
   claim_C5.2.1 (str "iv") (by decide),
   claim_C5.2.2.2.2.2.2 (str "zq") (by decide)⟩

/-- Claim C6, counterexample: the heading `"Chapter iiiiiiiiiiix"` parses (by
the right-to-left subtractive scan) to the nonzero value `-1`, which `num or
(idx+1)` keeps, so the emitted chapter's number is `-1 < 1`: the claim's
consequence "every emitted chapter's number is an integer ≥ 1" is false. -/
theorem claim_C6_counterexample :
    (split_into_chapters (str "Chapter iiiiiiiiiiix\nBody text here")
        CHAPTER_RE_DEFAULT []).map Chapter.number = [-1] ∧
    ¬(1 : Int) ≤ -1 := by
  exact ⟨by decide, by decide⟩

/-- Claim C6, amended: every emitted chapter's number equals the value parsed
from its heading (the hit's `num` field, which `scanLine` sets to
`parse_chapter_number` of group 1) when that value is nonzero, and otherwise
the record's 1-based emission position; consequently the number is a nonzero
integer (not necessarily ≥ 1: degenerate Roman numerals can parse
negative). -/
theorem claim_C6 (text : Text) (re : Regex) (bt : Text) (i : Nat) (ch : Chapter)
    (hch : (split_into_chapters text re bt).get? i = some ch) :
    ch.number ≠ 0 ∧
    ∃ h : Hit, (mkHits re bt (pySplitlines text)).get? i = some h ∧
      ch.number = (if h.num ≠ 0 then h.num else ((i + 1 : Nat) : Int)) := by
  unfold split_into_chapters at hch
  rcases buildChapters_get? (pySplitlines text) bt
    (mkHits re bt (pySplitlines text)) 0 i ch hch with ⟨h, hget, hnum, _⟩
  have hnum' : ch.number = (if h.num ≠ 0 then h.num else ((i + 1 : Nat) : Int)) := by
    rw [hnum]
    norm_num
  refine ⟨?_, h, hget, hnum'⟩
  rw [hnum']
  split
  · assumption
  · omega

/-- Claim C6, witness: the amended theorem at a concrete document. -/
theorem claim_C6_witness :
    (⟨1, str "Chapter 1", str "Hello"⟩ : Chapter).number ≠ 0 ∧
    ∃ h : Hit,
      (mkHits CHAPTER_RE_DEFAULT [] (pySplitlines (str "Chapter 1\nHello"))).get? 0 =
        some h ∧
      (⟨1, str "Chapter 1", str "Hello"⟩ : Chapter).number =
        (if h.num ≠ 0 then h.num else ((0 + 1 : Nat) : Int)) :=
  claim_C6 (str "Chapter 1\nHello") CHAPTER_RE_DEFAULT [] 0
    ⟨1, str "Chapter 1", str "Hello"⟩ (by decide)

/-- Claim C7: with a non-empty book title, a line whose stripped text equals
the stripped title up to ASCII case is never recorded as a heading hit (the
scan skips it via `is_book_title_line`) and never collected into any
chapter's `content_lines`. -/
theorem claim_C7 (text : Text) (re : Regex) (bt : Text) (hbt : bt ≠ []) :
    (∀ h ∈ mkHits re bt (pySplitlines text), ∀ l : Text,
       (pySplitlines text).get? h.idx = some l →
       pyUpperS (pyStrip l) ≠ pyUpperS (pyStrip bt)) ∧
    (∀ s e : Nat, ∀ l ∈ bodyLines (pySplitlines text) bt s e,
       pyUpperS (pyStrip l) ≠ pyUpperS (pyStrip bt)) := by
  have htitle : ∀ l : Text, pyUpperS (pyStrip l) = pyUpperS (pyStrip bt) →
      is_book_title_line (pyStrip l) bt = true := by
    intro l he
    unfold is_book_title_line
    rw [if_pos (by rw [pyStrip_idem]; exact he)]
  constructor
  · intro h hm l hget heq
    rcases mkHitsGo_mem (pySplitlines text) 0 h hm with ⟨_, l', hget', hsc⟩
    rw [Nat.sub_zero] at hget'
    rw [hget] at hget'
    injection hget' with hll
    subst hll
    rw [scanLine_of_title hbt (htitle l heq)] at hsc
    cases hsc
  · intro s e l hl heq
    have hk : keepBodyLine bt l = true := List.of_mem_filter hl
    have ht := htitle l heq
    simp [keepBodyLine, hbt, ht] at hk

/-- Claim C7, witness: in a document carrying its all-caps running title, the
recorded hit is the chapter heading, not the title line. -/
theorem claim_C7_witness :
    pyUpperS (pyStrip (str "Chapter 1")) ≠ pyUpperS (pyStrip (str "My Book")) :=
  (claim_C7 (str "MY BOOK\nChapter 1\nhello") CHAPTER_RE_DEFAULT (str "My Book")
    (by decide)).1 ⟨1, 1, str "Chapter 1"⟩ (by decide) (str "Chapter 1") (by decide)

/-- Claim C8: with chapter splitting enabled, a non-empty result of
`split_into_chapters` clears `full_text`, installs the chapter list and
derives `table_of_contents` one entry per chapter in order with matching
titles; with no chapters found, `full_text` keeps the cleaned text and the
chapter list stays empty. -/
theorem claim_C8 (cleaned : Text) (compile : Text → Option Regex)
    (customRegex bt : Text) (out : ContentRec) (chs : List Chapter)
    (hout : out = (process_files_content cleaned true compile customRegex bt).1)
    (hchs : chs = split_into_chapters cleaned
      (selectChapterRe compile customRegex).1 bt) :
    (chs ≠ [] → out.fullText = [] ∧ out.chapters = chs ∧
      out.tableOfContents.length = chs.length ∧
      (∀ (i : Nat) (e : TocEntry) (ch : Chapter),
        out.tableOfContents.get? i = some e → chs.get? i = some ch →
        e.title = ch.title)) ∧
    (chs = [] → out.fullText = cleaned ∧ out.chapters = []) := by
  subst hout hchs
  by_cases hstrip : pyStrip cleaned = []
  · have hempty := split_into_chapters_of_ws
      (selectChapterRe compile customRegex).1 bt hstrip
    constructor
    · intro hne
      exact absurd hempty hne
    · intro _
      unfold process_files_content
      rw [if_neg (by simp [hstrip])]
      exact ⟨rfl, rfl⟩
  · unfold process_files_content
    rw [if_pos ⟨rfl, hstrip⟩]
    by_cases hne : split_into_chapters cleaned
        (selectChapterRe compile customRegex).1 bt = []
    · rw [if_neg (by simpa using hne)]
      constructor
      · intro hne2
        exact absurd hne hne2
      · intro _
        exact ⟨rfl, rfl⟩
    · rw [if_pos hne]
      constructor
      · intro _
        refine ⟨rfl, rfl, tocOfGo_length _ 0, ?_⟩
        intro i e ch hte hce
        rcases tocOfGo_get? _ 0 i e hte with ⟨ch', hch', ht, _⟩
        rw [hce] at hch'
        injection hch' with hh
        rw [ht, hh]
      · intro hc
        exact absurd hc hne

/-- Claim C8, witness: the populated-chapters branch at a concrete document. -/
theorem claim_C8_witness :
    ((process_files_content (str "Chapter 1\nHello") true (fun _ => none)
      [] []).1).fullText = [] :=
  ((claim_C8 (str "Chapter 1\nHello") (fun _ => none) [] [] _ _ rfl rfl).1
    (by decide)).1

/-- Claim C9: an invalid caller-supplied heading pattern (the compile oracle
returns `none`) never aborts processing: the selection falls back to
`CHAPTER_RE_DEFAULT` with the warning flag set, and the document's content is
exactly what processing with no custom pattern produces. -/
theorem claim_C9 (cleaned custom bt : Text) (compile : Text → Option Regex)
    (hne : pyStrip custom ≠ []) (hfail : compile (pyStrip custom) = none) :
    selectChapterRe compile custom = (CHAPTER_RE_DEFAULT, true) ∧
    (process_files_content cleaned true compile custom bt).1 =
      (process_files_content cleaned true compile [] bt).1 ∧
    (pyStrip cleaned ≠ [] →
      (process_files_content cleaned true compile custom bt).2 = true) := by
  have hcust : custom ≠ [] := by
    intro hc
    rw [hc] at hne
    exact hne rfl
  have hsel : selectChapterRe compile custom = (CHAPTER_RE_DEFAULT, true) := by
    unfold selectChapterRe
    rw [if_pos ⟨hcust, hne⟩, hfail]
  have hsel0 : selectChapterRe compile [] = (CHAPTER_RE_DEFAULT, false) := by
    unfold selectChapterRe
    rw [if_neg (fun hc => hc.1 rfl)]
  refine ⟨hsel, ?_, ?_⟩
  · unfold process_files_content
    by_cases hstrip : pyStrip cleaned = []
    · rw [if_neg (by simp [hstrip]), if_neg (by simp [hstrip])]
    · by_cases hch : split_into_chapters cleaned CHAPTER_RE_DEFAULT bt = []
      · simp [hsel, hsel0, hstrip, hch]
      · simp [hsel, hsel0, hstrip, hch]
  · intro hstrip
    unfold process_files_content
    by_cases hch : split_into_chapters cleaned CHAPTER_RE_DEFAULT bt = []
    · simp [hsel, hstrip, hch]
    · simp [hsel, hstrip, hch]

/-- Claim C9, witness: the fallback at a concrete document whose custom
pattern fails to compile. -/
theorem claim_C9_witness :
    selectChapterRe (fun _ => none) (str "(") = (CHAPTER_RE_DEFAULT, true) :=
  (claim_C9 (str "Chapter 1\nHello") (str "(") [] (fun _ => none)
    (by decide) rfl).1

/-- Claim C10: with an empty book title, no running-title filtering occurs:
`split_into_chapters` coincides with the variant from which every book-title
test has been removed — every line is still tested against the heading
pattern and kept in chapter bodies subject only to the page-number filter. -/
theorem claim_C10 (text : Text) (re : Regex) :
    split_into_chapters text re [] = split_into_chaptersNF text re := by
  unfold split_into_chapters split_into_chaptersNF mkHits
  rw [mkHitsGo_empty_title, buildChapters_empty_title]
